import Mathlib

/-!
Verification of the OCCP constraint-compiler specification against a shallow
embedding of the repository sources.

Conventions of the embedding:
* Python strings are modelled as `List Char` (called `Str` below); the Python
  string methods used by the sources (`upper`, `lower`, `strip`, `replace`,
  `split`, `join`, f-string decimal rendering) are re-implemented as
  executable functions on `Str`.
* Python dicts are modelled as association lists with Python insertion-order
  update semantics (`pyDictSet` overwrites the first matching key in place,
  otherwise appends at the end; `pyDictGet` reads the first matching key).
* Python floats are modelled as rationals (`ℚ`); `int(...)` truncation is
  `pythonInt`.
* Fallible code returns `Except`; Python exceptions are explicit error values.
* `copy.deepcopy` is the identity on the value-level models; a separate
  heap-level model (`Heap*` definitions) tracks object identity and mutation
  for the frame-condition claim about `deep_merge_configs`.
-/

/-- Python strings, modelled as lists of characters. -/
abbrev Str := List Char

/-- Shorthand turning a Lean string literal into the `Str` model. -/
def lit (s : String) : Str := s.toList

/-- ASCII upper-casing of one character (Python `str.upper` on the ASCII
letters that occur in this repository). -/
def asciiUpper (c : Char) : Char :=
  if 'a' ≤ c ∧ c ≤ 'z' then Char.ofNat (c.toNat - 32) else c

/-- ASCII lower-casing of one character. -/
def asciiLower (c : Char) : Char :=
  if 'A' ≤ c ∧ c ≤ 'Z' then Char.ofNat (c.toNat + 32) else c

/-- Python `s.upper()`. -/
def strUpper (s : Str) : Str := s.map asciiUpper

/-- Python `s.lower()`. -/
def strLower (s : Str) : Str := s.map asciiLower

/-- Python `s.strip()` (the inputs in scope only ever carry space padding). -/
def pyTrim (s : Str) : Str :=
  ((s.dropWhile (· = ' ')).reverse.dropWhile (· = ' ')).reverse

/-- Fuel-driven worker for `pyReplace`; the fuel is the length of the scanned
string, so the function is structural and kernel-reducible. -/
def pyReplaceAux (pat rep : Str) : Nat → Str → Str
  | 0, s => s
  | _ + 1, [] => []
  | fuel + 1, c :: cs =>
    if pat ≠ [] ∧ pat.isPrefixOf (c :: cs) then
      rep ++ pyReplaceAux pat rep fuel ((c :: cs).drop pat.length)
    else
      c :: pyReplaceAux pat rep fuel cs

/-- Python `s.replace(pat, rep)`: replace every non-overlapping occurrence,
scanning left to right.  (The sources never call `replace` with an empty
pattern; for `pat = []` this model returns `s` unchanged.) -/
def pyReplace (s pat rep : Str) : Str := pyReplaceAux pat rep s.length s

/-- Python `s.split(pat, 1)` restricted to the first-occurrence information:
`some (before, after)` when `pat` occurs in `s`, otherwise `none`. -/
def pySplitOnce (pat : Str) : Str → Option (Str × Str)
  | [] => none
  | c :: cs =>
    if pat ≠ [] ∧ pat.isPrefixOf (c :: cs) then
      some ([], (c :: cs).drop pat.length)
    else
      (pySplitOnce pat cs).map (fun pr => (c :: pr.1, pr.2))

/-- Python `sep.join(parts)`. -/
def pyJoin (sep : Str) : List Str → Str
  | [] => []
  | [x] => x
  | x :: y :: rest => x ++ sep ++ pyJoin sep (y :: rest)

/-- Python `path.split(sep)` for a one-character separator (used for the
dot-delimited paths of the config remap table). -/
def splitOnCharAux (sep : Char) : Str → Str → List Str
  | acc, [] => [acc.reverse]
  | acc, c :: cs =>
    if c = sep then acc.reverse :: splitOnCharAux sep [] cs
    else splitOnCharAux sep (c :: acc) cs

/-- Python `s.split(sep)` for a one-character separator. -/
def splitOnChar (sep : Char) (s : Str) : List Str := splitOnCharAux sep [] s

/-- Python decimal digit characters, by value (`d % 10` is always in range in
the uses below). -/
def digitChar10 (d : Nat) : Char :=
  match d with
  | 0 => '0' | 1 => '1' | 2 => '2' | 3 => '3' | 4 => '4'
  | 5 => '5' | 6 => '6' | 7 => '7' | 8 => '8' | _ => '9'

/-- Fuel-driven most-significant-first decimal rendering worker. -/
def natCharsAux : Nat → Nat → List Char → List Char
  | 0, _, acc => acc
  | fuel + 1, n, acc =>
    if n = 0 then acc else natCharsAux fuel (n / 10) (digitChar10 (n % 10) :: acc)

/-- Decimal rendering of a natural number, as produced by a Python f-string. -/
def natChars (n : Nat) : List Char :=
  if n = 0 then ['0'] else natCharsAux n n []

/-- Decimal rendering of an integer (`str(int(v))` in the sources). -/
def intChars (i : Int) : Str :=
  if i < 0 then '-' :: natChars i.natAbs else natChars i.natAbs

/-- Numeric value of a decimal digit character (left inverse of `digitChar10`,
used to prove the decimal rendering injective). -/
def digitVal : Char → Nat
  | '0' => 0 | '1' => 1 | '2' => 2 | '3' => 3 | '4' => 4
  | '5' => 5 | '6' => 6 | '7' => 7 | '8' => 8 | _ => 9

/-- Decimal value of a digit string (most significant first) on top of a
high-order accumulator. -/
def decValFrom (x : Nat) (s : Str) : Nat :=
  s.foldl (fun a c => a * 10 + digitVal c) x

/-- Python dict write `d[k] = v`: overwrite the first entry with the given key
keeping its position, otherwise append a new entry at the end. -/
def pyDictSet {κ α : Type} [DecidableEq κ] (d : List (κ × α)) (k : κ) (v : α) :
    List (κ × α) :=
  if d.any (fun kv => decide (kv.1 = k)) then
    d.map (fun kv => if kv.1 = k then (kv.1, v) else kv)
  else
    d ++ [(k, v)]

/-- Python dict read `d.get(k)`: the first entry with the given key. -/
def pyDictGet {κ α : Type} [DecidableEq κ] (d : List (κ × α)) (k : κ) : Option α :=
  (d.find? (fun kv => decide (kv.1 = k))).map (·.2)

/-- Python `int(q)` on a rational: truncation toward zero. -/
def pythonInt (q : ℚ) : ℤ := if 0 ≤ q then ⌊q⌋ else ⌈q⌉

/-- Decidable equality of `Except` results (needed to state concrete runs). -/
instance {ε α : Type} [DecidableEq ε] [DecidableEq α] : DecidableEq (Except ε α) :=
  fun a b =>
    match a, b with
    | .ok x, .ok y => if h : x = y then .isTrue (by rw [h]) else .isFalse (by simp [h])
    | .error x, .error y => if h : x = y then .isTrue (by rw [h]) else .isFalse (by simp [h])
    | .ok _, .error _ => .isFalse (by simp)
    | .error _, .ok _ => .isFalse (by simp)

/-! ## Embedding of `src/core/utils.py` -/

/-- The `ChannelMapper._map` table from `src/core/utils.py`.  Note the value
for `RTE-SENT` carries a space where the value for `RTE-OPEN` carries an
underscore. -/
def channelMapPairs : List (Str × Str) :=
  [ (lit "F2F", lit "FACE_TO_FACE")
  , (lit "REMOTE", lit "REMOTE_MEETING")
  , (lit "WHATSAPP/INSTANT MESSAGE", lit "WHATSAPP")
  , (lit "RTE-OPEN", lit "TRIGGERED_EMAIL")
  , (lit "RTE-SENT", lit "TRIGGERED EMAIL") ]

/-- `ChannelMapper.canonical`: `cls._map.get(channel.upper(), channel.upper())`. -/
def channelCanonical (s : Str) : Str :=
  (pyDictGet channelMapPairs (strUpper s)).getD (strUpper s)

/-- The body of `BrandCombinator.get_combinations` for one subset size:
`itertools.combinations(brands, r)` in emission order. -/
def combos {α : Type} : Nat → List α → List (List α)
  | 0, _ => [[]]
  | _ + 1, [] => []
  | r + 1, x :: xs => (combos r xs).map (x :: ·) ++ combos (r + 1) xs

/-- `BrandCombinator.get_combinations`: all subsets of size `2 .. n` in
`itertools` order (`for r in range(2, len(brands) + 1)`). -/
def getCombinations {α : Type} (brands : List α) : List (List α) :=
  (List.range' 2 (brands.length + 1 - 2)).flatMap (fun r => combos r brands)

/-- Index of the first occurrence of `a` in `l` (length of `l` if absent);
the positional order used to compare combination tuples against the input
brand order. -/
def idxOf {α : Type} [DecidableEq α] : List α → α → Nat
  | [], _ => 0
  | x :: xs, a => if x = a then 0 else idxOf xs a + 1

/-- Lexicographic strict order on tuples, comparing elements by their first
position in the reference list `l`; this is the order in which
`itertools.combinations` emits same-size tuples. -/
def lexIdxB {α : Type} [DecidableEq α] (l : List α) : List α → List α → Bool
  | [], [] => false
  | [], _ :: _ => true
  | _ :: _, [] => false
  | a :: as, b :: bs =>
    if a = b then lexIdxB l as bs else decide (idxOf l a < idxOf l b)

/-! ## Embedding of the DTO channel vocabulary (`src/core/dto.py`)

`Channel` is a `Literal` type of eight fixed strings in the DTO layer; every
channel list and capacity map in a `DTOBundle` draws from it. -/

/-- The eight `Channel` literals of `src/core/dto.py`. -/
inductive Channel : Type
  | f2f | remote | phone | meetings | virtualMeetings | whatsapp | rteOpen | rteSent
deriving DecidableEq

/-- The literal string carried by each `Channel` value. -/
def Channel.str : Channel → Str
  | .f2f => lit "F2F"
  | .remote => lit "Remote"
  | .phone => lit "Phone"
  | .meetings => lit "Meetings"
  | .virtualMeetings => lit "Virtual Meetings"
  | .whatsapp => lit "Whatsapp/Instant Message"
  | .rteOpen => lit "RTE-Open"
  | .rteSent => lit "RTE-Sent"

/-! ## Embedding of `ConstraintBuilder._build_interaction_channels`
(`src/services/constraint_builder.py`, lines 75-107; the identical algorithm
appears as `OCCPTool._build_interaction_channels` in `src/ui_orignal.py`). -/

/-- The ordinal label `f'BRAND{i+1}'` for the brand at position `i`. -/
def brandLabel (i : Nat) : Str := lit "BRAND" ++ natChars (i + 1)

/-- Worker for the brand-map dict comprehension, carrying the enumeration
index. -/
def brandMapAux (i : Nat) : List Str → List (Str × Str) → List (Str × Str)
  | [], d => d
  | b :: rest, d => brandMapAux (i + 1) rest (pyDictSet d b (brandLabel i))

/-- The dict comprehension
`{brand: f'BRAND{i+1}' for i, brand in enumerate(bundle.market.brands)}`. -/
def brandMapPairs (brands : List Str) : List (Str × Str) :=
  brandMapAux 0 brands []

/-- The bare channel key `f"REP_{mapped_channel}"` where `mapped_channel` is
`ChannelMapper.canonical(channel.upper()).replace(" ", "_")`. -/
def repKey (c : Channel) : Str :=
  lit "REP_" ++ pyReplace (channelCanonical (strUpper c.str)) (lit " ") (lit "_")

/-- The per-channel block of interaction keys: the single-brand keys for every
brand present in the brand map, followed (for multibrand-eligible channels) by
one key per brand combination whose members are all in the brand map. -/
def channelInteractions (multibrandChannels : List Channel) (brands : List Str)
    (bm : List (Str × Str)) (c : Channel) : List Str :=
  let channelKey := repKey c
  let singles := brands.filterMap
    (fun b => (pyDictGet bm b).map (fun lab => channelKey ++ '_' :: lab))
  let eligible := multibrandChannels.any
    (fun mc => decide (strLower c.str = strLower mc.str))
  let combosK :=
    if eligible then
      (getCombinations brands).filterMap (fun combo =>
        (combo.mapM (pyDictGet bm)).map
          (fun labs => channelKey ++ '_' :: pyJoin (lit "_AND_") labs))
    else []
  singles ++ combosK

/-- `ConstraintBuilder._build_interaction_channels`: returns the flat
interaction-key sequence, the channel-to-interactions dict and the bare
`REP_<token>` column list. -/
def buildInteractionChannels (channels multibrandChannels : List Channel)
    (brands : List Str) : List Str × List (Str × List Str) × List Str :=
  let bm := brandMapPairs brands
  let interactionChannels :=
    channels.flatMap (channelInteractions multibrandChannels brands bm)
  let combinedDict :=
    channels.foldl
      (fun d c => pyDictSet d (repKey c) (channelInteractions multibrandChannels brands bm c)) []
  let channelRepCol := channels.map repKey
  (interactionChannels, combinedDict, channelRepCol)

/-! ## Embedding of `ConstraintBuilder._build_capacity_constraints`
(`src/services/constraint_builder.py`, lines 158-179). -/

/-- The label `ChannelMapper.canonical(rep_channel.replace("REP_", "").upper())`
computed for each bare key. -/
def capacityRawLabel (repChannel : Str) : Str :=
  channelCanonical (strUpper (pyReplace repChannel (lit "REP_") []))

/-- The `for ... break / else value = 0.0` search over
`bundle.capacity.daily_capacity.items()`: the first capacity entry whose
canonical channel label equals `rawLabel`, defaulting to `0.0`. -/
def capacityValueFor (dailyCapacity : List (Channel × ℚ)) (rawLabel : Str) : ℚ :=
  ((dailyCapacity.find? (fun cv => decide (channelCanonical cv.1.str = rawLabel))).map
    (·.2)).getD 0

/-- `ConstraintBuilder._build_capacity_constraints`.  Python raises
`ZeroDivisionError` when `bundle.cycle.months = 0`; the DTO declares `months`
a `PositiveInt`, and every theorem below assumes `0 < months`, so the
Lean-side `q / 0 = 0` convention is never exercised. -/
def buildCapacityConstraints (salesLine : Str) (channelRepCol : List Str)
    (dailyCapacity : List (Channel × ℚ)) (workingDays months : ℕ) :
    List (Str × List (Str × ℤ)) :=
  let d := channelRepCol.foldl
    (fun acc rep =>
      pyDictSet acc rep
        (pythonInt ((capacityValueFor dailyCapacity (capacityRawLabel rep) * workingDays) / months)))
    []
  [(salesLine, d)]

/-! ## Embedding of `src/utils/output_mapping.py` (warehouse id resolution) -/

/-- The `CHANNEL_NAME_MAP` table of `map_channels_with_consent`. -/
def channelNameMapPairs : List (Str × Str) :=
  [ (lit "F2F", lit "FACE TO FACE")
  , (lit "Remote", lit "REMOTE")
  , (lit "Phone", lit "PHONE")
  , (lit "Meetings", lit "MEETINGS")
  , (lit "Virtual Meetings", lit "VIRTUAL MEETINGS")
  , (lit "VIRTUAL_MEETINGS", lit "VIRTUAL MEETINGS")
  , (lit "WHATSAPP/INSTANT_MESSAGE", lit "WHATSAPP/INSTANT MESSAGE")
  , (lit "Whatsapp/Instant Message", lit "WHATSAPP/INSTANT MESSAGE")
  , (lit "RTE-Open", lit "RTE")
  , (lit "RTE-OPEN", lit "RTE")
  , (lit "RTE-Sent", lit "RTE")
  , (lit "RTE-SENT", lit "RTE") ]

/-- `map_channels_with_consent`: map UI labels through `CHANNEL_NAME_MAP`,
then substitute the consent-qualified label for every `RTE` element. -/
def mapChannelsWithConsent (uiChannels : List Str) (econsent : Bool) : List Str :=
  let mapped := uiChannels.map (fun ch => (pyDictGet channelNameMapPairs ch).getD ch)
  if mapped.any (fun ch => decide (ch = lit "RTE")) then
    let consentChannel :=
      if econsent then lit "RTE WITH CONSENT" else lit "RTE WITHOUT CONSENT"
    mapped.map (fun ch => if ch = lit "RTE" then consentChannel else ch)
  else mapped

/-- `get_channel_id`: exact match on the upper-cased, stripped channel label
against the upper-cased, stripped `CHANNEL` column; `ValueError` on a miss. -/
def getChannelId (channelName : Str) (dfChannel : List (Str × ℤ)) : Except Str ℤ :=
  let name := pyTrim (strUpper channelName)
  match dfChannel.find? (fun row => decide (pyTrim (strUpper row.1) = name)) with
  | some row => .ok row.2
  | none => .error (lit "Channel " ++ name ++ lit " not found in DS_CHANNEL.")

/-- The channel-id resolution pipeline of `create_business_constraints_file`:
`map_channels_with_consent` first, then `get_channel_id` on each substituted
label. -/
def channelIdsFor (channels : List Str) (econsent : Bool)
    (dfChannel : List (Str × ℤ)) : List (Except Str ℤ) :=
  (mapChannelsWithConsent channels econsent).map (fun ch => getChannelId ch dfChannel)

/-- Python exceptions raised (or attempted) by `get_brand_id`. -/
inductive PyExc : Type
  | valueError : Str → PyExc
  | nameError : Str → PyExc
deriving DecidableEq

/-- `get_brand_id` over a reference table of
`(GLOBAL_BRAND, INDICATION_NAME, BRAND_ID)` rows.  On the DUPIXENT path a
lookup miss executes `st.error(...)`, but `output_mapping.py` never imports
`streamlit`, so the name `st` is undefined and Python raises
`NameError: name st is not defined` instead of a `ValueError`. -/
def getBrandId (brandName : Str) (dfBrand : List (Str × Str × ℤ)) : Except PyExc ℤ :=
  let name := pyTrim (strUpper brandName)
  let rows := dfBrand.map (fun r => (pyTrim (strUpper r.1), pyTrim (strUpper r.2.1), r.2.2))
  if (lit "DUPIXENT").isPrefixOf name then
    match pySplitOnce (lit " ") name with
    | some pr =>
      let indication := pyTrim pr.2
      match rows.find? (fun r => decide (r.1 = lit "DUPIXENT" ∧ r.2.1 = indication)) with
      | some r => .ok r.2.2
      | none => .error (.nameError (lit "name st is not defined"))
    | none =>
      match rows.find? (fun r => decide (r.1 = lit "DUPIXENT")) with
      | some r => .ok r.2.2
      | none => .error (.nameError (lit "name st is not defined"))
  else
    match rows.find? (fun r => decide (r.1 = name)) with
    | some r => .ok r.2.2
    | none => .error (.valueError (lit "Brand " ++ name ++ lit " not found in DS_BRAND."))

/-! ## Embedding of `OCCPTool._transform_hcp_bounds` and
`OCCPTool._group_hcp_bounds` (`src/ui_orignal.py`).

`ConstraintBuilder._transform_hcp_bounds` in the service layer is an explicit
stub (its comment defers to "the original ui.py"), so the authoritative
historical-mode transformer is the `ui_orignal.py` implementation embedded
here.  The transformer never inspects the grouped rule values it copies, so it
is polymorphic in the value type `α`. -/

/-- Lexicographic Boolean comparison of strings (pandas sorts group keys). -/
def strLeB : Str → Str → Bool
  | [], _ => true
  | _ :: _, [] => false
  | c :: cs, d :: ds => if c = d then strLeB cs ds else decide (c < d)

/-- First-occurrence deduplication (worker with the seen accumulator). -/
def strDedupAux : List Str → List Str → List Str
  | _, [] => []
  | seen, x :: xs =>
    if seen.any (fun y => decide (y = x)) then strDedupAux seen xs
    else x :: strDedupAux (x :: seen) xs

/-- First-occurrence deduplication. -/
def strDedup (l : List Str) : List Str := strDedupAux [] l

/-- Insertion into a sorted string list. -/
def insertSorted (x : Str) : List Str → List Str
  | [] => [x]
  | y :: ys => if strLeB x y then x :: y :: ys else y :: insertSorted x ys

/-- Insertion sort by the lexicographic string order. -/
def strSort : List Str → List Str
  | [] => []
  | x :: xs => insertSorted x (strSort xs)

/-- `OCCPTool._group_hcp_bounds` on a historical bounds table: rows are
`(CHANNEL, REFERENCE_CYCLE_ACTUAL, MIN_VALUE, MAX_VALUE)`; groups are keyed by
channel in pandas sorted order, and each group is the insertion-ordered dict
from the decimal rendering of the bucket to `[min, max]`. -/
def groupHcpBounds (rows : List (Str × Int × Int × Int)) :
    List (Str × List (Str × List Int)) :=
  (strSort (strDedup (rows.map (·.1)))).map (fun c =>
    (c, rows.foldl
      (fun d r => if r.1 = c then pyDictSet d (intChars r.2.1) [r.2.2.1, r.2.2.2] else d)
      []))

/-- `OCCPTool._transform_hcp_bounds`: for every grouped rule entry, write the
entry value unchanged under the single-brand keys, the bare channel key, and
the brand-combination keys (brand combinations when the channel is
multibrand-eligible, singleton combinations otherwise). -/
def transformHcpBounds {α : Type} (hcpBoundsDict : List (Str × α))
    (brands : List Str) (multibrandChannels : List Str) : List (Str × α) :=
  let bm := brandMapPairs brands
  let normalizedMc :=
    multibrandChannels.map (fun ch => pyTrim (pyReplace (strLower ch) (lit "_") (lit " ")))
  hcpBoundsDict.foldl
    (fun transformed entry =>
      let channelRaw := strLower (pyTrim (pyReplace entry.1 (lit "_") (lit " ")))
      let mappedChannel :=
        pyReplace
          ((pyDictGet channelMapPairs (strUpper channelRaw)).getD (strUpper channelRaw))
          (lit " ") (lit "_")
      let isMulti := normalizedMc.any (fun x => decide (x = channelRaw))
      let brandCombos :=
        if isMulti then getCombinations brands else brands.map (fun b => [b])
      let t1 := brands.foldl
        (fun t b =>
          match pyDictGet bm b with
          | some lab => pyDictSet t (lit "REP_" ++ mappedChannel ++ '_' :: lab) entry.2
          | none => t)
        transformed
      let t2 := pyDictSet t1 (lit "REP_" ++ mappedChannel) entry.2
      brandCombos.foldl
        (fun t combo =>
          match combo.mapM (pyDictGet bm) with
          | some labs =>
            pyDictSet t (lit "REP_" ++ mappedChannel ++ '_' :: pyJoin (lit "_AND_") labs)
              entry.2
          | none => t)
        t2)
    []

/-- Rule values flowing into the historical-mode transformer: either a bare
`[min, max]` bound list (the shape the specification asserts) or a
bucket-to-bounds table (the shape `_group_hcp_bounds` actually produces). -/
inductive EnvVal : Type
  | bounds : List Int → EnvVal
  | table : List (Str × List Int) → EnvVal
deriving DecidableEq

/-- The historical-mode envelope pipeline of the source: group the rule rows,
then transform the grouped dict. -/
def envelopeRulesHistorical (rows : List (Str × Int × Int × Int))
    (brands : List Str) (multibrandChannels : List Str) : List (Str × EnvVal) :=
  transformHcpBounds
    ((groupHcpBounds rows).map (fun pr => (pr.1, EnvVal.table pr.2)))
    brands multibrandChannels

/-! ## Embedding of the config deep-merge utilities (`src/utils/utils.py`)

Configuration documents are nested Python structures of dicts, sequences and
scalar leaves.  They are modelled as the mutual family `Cfg` / `Fields` /
`Elems` (a first-order presentation of dicts as ordered field lists and of
sequences as element lists) so that every traversal below is structurally
recursive and kernel-reducible.  `copy.deepcopy` is the identity at this value
level; the heap model further down captures object identity. -/

/-- Scalar (non-container) Python values appearing at config leaves. -/
inductive CLeaf : Type
  | int : ℤ → CLeaf
  | str : Str → CLeaf
  | bool : Bool → CLeaf
  | null : CLeaf
deriving DecidableEq

mutual
/-- A Python config value: scalar leaf, dict, or sequence. -/
inductive Cfg : Type
  | leaf : CLeaf → Cfg
  | node : Fields → Cfg
  | seq : Elems → Cfg
deriving DecidableEq

/-- The ordered field list of a config dict. -/
inductive Fields : Type
  | nil : Fields
  | cons : Str → Cfg → Fields → Fields
deriving DecidableEq

/-- The element list of a config sequence. -/
inductive Elems : Type
  | nil : Elems
  | cons : Cfg → Elems → Elems
deriving DecidableEq
end

/-- Dict read: the value of the first field with the given key. -/
def fget : Fields → Str → Option Cfg
  | .nil, _ => none
  | .cons k v rest, key => if k = key then some v else fget rest key

/-- Dict write `d[k] = v`: overwrite the first field with the given key in
place, otherwise append at the end. -/
def fset : Fields → Str → Cfg → Fields
  | .nil, key, v => .cons key v .nil
  | .cons k w rest, key, v =>
    if k = key then .cons k v rest else .cons k w (fset rest key v)

/-- The first dict key whose normalisation matches `kn`
(`next((k for k in dst if norm(k) == k_norm), str(k_src))` with the given
default). -/
def ffindKey (norm : Str → Str) : Fields → Str → Option Str
  | .nil, _ => none
  | .cons k _ rest, kn => if norm k = kn then some k else ffindKey norm rest kn

/-- `_leaves` over the fields of a dict: yield `(path, value)` for every
non-dict value underneath, with dict keys normalised into the path. -/
def fieldsLeaves (norm : Str → Str) : List Str → Fields → List (List Str × Cfg)
  | _, .nil => []
  | path, .cons k v rest =>
    (match v with
     | .node kvs => fieldsLeaves norm (path ++ [norm k]) kvs
     | other => [(path ++ [norm k], other)])
    ++ fieldsLeaves norm path rest

/-- `_leaves` on a config value. -/
def cfgLeaves (norm : Str → Str) (path : List Str) : Cfg → List (List Str × Cfg)
  | .node kvs => fieldsLeaves norm path kvs
  | c => [(path, c)]

/-- `_merge(dst, src, cur, pending, norm)` restricted to the source-field
loop: thread the destination dict through the source fields, collecting the
pending leaf updates contributed by nested recursive `_merge` calls.  (Each
recursive call also appends `_leaves` of its own source subtree, as the
Python code does after its loop; the top-level `_leaves` extension happens in
`deepMergeConfigs`.) -/
def mergeFields (norm : Str → Str) :
    Fields → Fields → List Str → Fields × List (List Str × Cfg)
  | dst, .nil, _ => (dst, [])
  | dst, .cons k v rest, cur =>
    let kn := norm k
    let kdst := (ffindKey norm dst kn).getD k
    match v, fget dst kdst with
    | .node vf, some (.node df) =>
      let inner := mergeFields norm df vf (cur ++ [kn])
      let pendingInner := inner.2 ++ fieldsLeaves norm (cur ++ [kn]) vf
      let outer := mergeFields norm (fset dst kdst (.node inner.1)) rest cur
      (outer.1, pendingInner ++ outer.2)
    | _, _ =>
      let outer := mergeFields norm (fset dst kdst v) rest cur
      (outer.1, outer.2)

/-- The element loop of `propagate_in_sequence`, parameterised by the
recursive `_propagate` call of the next fuel level: the path is propagated
into the dict elements of a sequence, and non-dict elements (including nested
sequences) are skipped. -/
def propElemsWith (rec2 : Cfg → List Str → Cfg → Cfg) (path : List Str) (v : Cfg) :
    Elems → Elems
  | .nil => .nil
  | .cons x rest =>
    let x2 := match x with
      | .node _ => rec2 x path v
      | other => other
    .cons x2 (propElemsWith rec2 path v rest)

/-- The field loop of `_propagate`, parameterised by the recursive
`_propagate` call of the next fuel level: a matched key with an empty tail is
overwritten (and skipped by `continue`); otherwise the tail and then the full
path are propagated into the field value, and sequences propagate the full
path into their dict elements. -/
def propFieldsWith (norm : Str → Str) (rec2 : Cfg → List Str → Cfg → Cfg)
    (head : Str) (tail : List Str) (v : Cfg) : Fields → Fields
  | .nil => .nil
  | .cons k val rest =>
    let restOut := propFieldsWith norm rec2 head tail v rest
    if norm k = head ∧ tail = [] then
      .cons k v restOut
    else
      let val1 := if norm k = head then rec2 val tail v else val
      let val2 :=
        match val1 with
        | .node _ => rec2 val1 (head :: tail) v
        | .seq xs => .seq (propElemsWith rec2 (head :: tail) v xs)
        | other => other
      .cons k val2 restOut

/-- `_propagate(node, path, value, norm)`, fuel-driven (via `Nat.rec`, so the
definition kernel-reduces) because the Python code first propagates the tail
into a matched value and then re-propagates the full path into the mutated
value, a non-structural composition.  Exhausted fuel returns the tree
unchanged; every theorem below supplies sufficient fuel. -/
def propagateCfg (norm : Str → Str) (fuel : Nat) : Cfg → List Str → Cfg → Cfg :=
  Nat.rec (motive := fun _ => Cfg → List Str → Cfg → Cfg)
    (fun c _ _ => c)
    (fun _ ih c path v =>
      match c, path with
      | .node kvs, head :: tail => .node (propFieldsWith norm ih head tail v kvs)
      | c, _ => c)
    fuel

/-- Python exceptions surfaced by the path helpers. -/
inductive PyErr : Type
  | attributeError : PyErr
  | typeError : PyErr
deriving DecidableEq

/-- `get_value_at_path`: walk the dot-path with `dictionary.get(key, {})`,
returning Python `None` (here `Option.none`) as soon as a value is `None`;
calling `.get` on a non-dict raises `AttributeError`. -/
def getValueAtPath (c : Cfg) : List Str → Except PyErr (Option Cfg)
  | [] => .ok (some c)
  | k :: rest =>
    match c with
    | .node kvs =>
      match fget kvs k with
      | some (.leaf .null) => .ok none
      | some v => getValueAtPath v rest
      | none => getValueAtPath (.node .nil) rest
    | _ => .error .attributeError

/-- `set_value_at_path`: `setdefault` walk over all but the last key, then
assign at the last key; walking into or assigning on a non-dict raises. -/
def setValueAtPath (c : Cfg) : List Str → Cfg → Except PyErr Cfg
  | [], _ => .ok c
  | [k], v =>
    match c with
    | .node kvs => .ok (.node (fset kvs k v))
    | _ => .error .typeError
  | k :: k2 :: rest, v =>
    match c with
    | .node kvs =>
      match fget kvs k with
      | some w => do
        let w2 ← setValueAtPath w (k2 :: rest) v
        .ok (.node (fset kvs k w2))
      | none => do
        let w2 ← setValueAtPath (.node .nil) (k2 :: rest) v
        .ok (.node (fset kvs k w2))
    | _ => .error .attributeError

/-- One pending propagation pass per collected leaf update
(`for path, val in pending: _propagate(result, path, val, norm)`). -/
def applyPending (norm : Str → Str) (fuel : Nat) (c : Cfg)
    (pending : List (List Str × Cfg)) : Cfg :=
  pending.foldl (fun acc pr => propagateCfg norm fuel acc pr.1 pr.2) c

/-- `deep_merge_configs(base, incoming, case_insensitive=...)` with the static
remap table passed explicitly (the repository loads it from
`config/config_mapping.yaml`, which is not part of `src/`; every entry is a
`dest_path -> source_path` pair of dot-delimited strings).  The three phases
mirror the source: structural merge collecting pending leaf updates, leaf
propagation, then the remap loop guarded by `if val is not None`. -/
def deepMergeConfigs (fuel : Nat) (configMap : List (Str × Str))
    (base incoming : Cfg) (caseInsensitive : Bool) : Except PyErr Cfg :=
  let norm : Str → Str := if caseInsensitive then strLower else (fun k => k)
  match base, incoming with
  | .node bf, .node inf =>
    let merged := mergeFields norm bf inf []
    let pending := merged.2 ++ fieldsLeaves norm [] inf
    let propagated := applyPending norm fuel (.node merged.1) pending
    configMap.foldlM
      (fun acc pr =>
        match getValueAtPath incoming (splitOnChar '.' pr.2) with
        | .error e => .error e
        | .ok none => .ok acc
        | .ok (some v) => setValueAtPath acc (splitOnChar '.' pr.1) v)
      propagated
  | _, _ => .error .attributeError

/-! ## Heap-level model of `deep_merge_configs`

The value-level model above cannot express object identity, so the
frame-condition claim about `deep_merge_configs` (no argument mutation, no
shared substructure) is settled against this heap model: Python objects live
at addresses, dicts and lists hold addresses, and every helper of
`src/utils/utils.py` is re-run as a heap transformer.  All functions are
fuel-driven and are only ever evaluated on concrete inputs. -/

/-- A Python object address. -/
abbrev Addr := Nat

/-- A Python object: integer, `None`, dict (ordered fields holding addresses)
or list (elements holding addresses). -/
inductive HObj : Type
  | hint : ℤ → HObj
  | hnull : HObj
  | hdict : List (Str × Addr) → HObj
  | hlist : List Addr → HObj
deriving DecidableEq

/-- A heap: the next fresh address and the store. -/
structure Heap : Type where
  next : Addr
  mem : List (Addr × HObj)
deriving DecidableEq

/-- Read an object from the heap. -/
def hget (h : Heap) (a : Addr) : Option HObj := pyDictGet h.mem a

/-- Overwrite an object in place. -/
def hset (h : Heap) (a : Addr) (o : HObj) : Heap :=
  { next := h.next, mem := pyDictSet h.mem a o }

/-- Allocate a fresh object. -/
def halloc (h : Heap) (o : HObj) : Heap × Addr :=
  ({ next := h.next + 1, mem := h.mem ++ [(h.next, o)] }, h.next)

/-- `copy.deepcopy`: atomic objects are returned as-is (they are immutable in
Python), containers are copied recursively into fresh objects. -/
def deepcopyH : Nat → Heap → Addr → Option (Heap × Addr)
  | 0, _, _ => none
  | fuel + 1, h, a =>
    match hget h a with
    | none => none
    | some (.hint _) => some (h, a)
    | some .hnull => some (h, a)
    | some (.hdict kvs) => do
      let r ← kvs.foldlM
        (fun (st : Heap × List (Str × Addr)) kv => do
          let pr ← deepcopyH fuel st.1 kv.2
          pure (pr.1, st.2 ++ [(kv.1, pr.2)]))
        (h, [])
      pure (halloc r.1 (.hdict r.2))
    | some (.hlist xs) => do
      let r ← xs.foldlM
        (fun (st : Heap × List Addr) x => do
          let pr ← deepcopyH fuel st.1 x
          pure (pr.1, st.2 ++ [pr.2]))
        (h, [])
      pure (halloc r.1 (.hlist r.2))

/-- `_leaves` at the heap level: `(path, object)` for every non-dict value
under an object (the objects themselves, not copies). -/
def leavesH : Nat → Heap → List Str → Addr → Option (List (List Str × Addr))
  | 0, _, _, _ => none
  | fuel + 1, h, path, a =>
    match hget h a with
    | some (.hdict kvs) =>
      kvs.foldlM
        (fun acc kv => do
          let l ← leavesH fuel h (path ++ [kv.1]) kv.2
          pure (acc ++ l))
        []
    | some _ => some [(path, a)]
    | none => none

/-- `_merge(dst, src, cur, pending, norm)` at the heap level (identity
normalisation): mutates the destination dict in place, deep-copying every
non-recursive source value, and collects the pending leaf updates of nested
calls together with this call's own `_leaves` extension. -/
def mergeH : Nat → Heap → Addr → Addr → List Str → Option (Heap × List (List Str × Addr))
  | 0, _, _, _, _ => none
  | fuel + 1, h, dstA, srcA, cur =>
    match hget h srcA with
    | some (.hdict skvs) => do
      let st ← skvs.foldlM
        (fun (st : Heap × List (List Str × Addr)) kv => do
          let h := st.1
          match hget h dstA with
          | some (.hdict dkvs) =>
            let kdst := ((dkvs.find? (fun e => decide (e.1 = kv.1))).map (·.1)).getD kv.1
            match pyDictGet dkvs kdst, hget h kv.2 with
            | some wA, some (.hdict _) =>
              match hget h wA with
              | some (.hdict _) => do
                let pr ← mergeH fuel h wA kv.2 (cur ++ [kv.1])
                pure (pr.1, st.2 ++ pr.2)
              | _ => do
                let cp ← deepcopyH fuel h kv.2
                pure (hset cp.1 dstA (.hdict (pyDictSet dkvs kdst cp.2)), st.2)
            | _, _ => do
              let cp ← deepcopyH fuel h kv.2
              pure (hset cp.1 dstA (.hdict (pyDictSet dkvs kdst cp.2)), st.2)
          | _ => none)
        (h, [])
      let selfLeaves ← leavesH fuel st.1 cur srcA
      pure (st.1, st.2 ++ selfLeaves)
    | _ => none

/-- The element loop of the heap-level `propagate_in_sequence`, parameterised
by the recursive heap `_propagate` of the next fuel level. -/
def propSeqHWith (rec2 : Heap → Addr → List Str → Addr → Option Heap) :
    Heap → List Addr → List Str → Addr → Option Heap
  | h, [], _, _ => some h
  | h, x :: rest, path, vA => do
    let h1 ←
      match hget h x with
      | some (.hdict _) => rec2 h x path vA
      | _ => some h
    propSeqHWith rec2 h1 rest path vA

/-- The field loop of the heap-level `_propagate`, parameterised by the
recursive heap `_propagate` of the next fuel level and by a deep-copy budget. -/
def propFieldsHWith (rec2 : Heap → Addr → List Str → Addr → Option Heap)
    (copyFuel : Nat) :
    Heap → Addr → List (Str × Addr) → Str → List Str → Addr → Option Heap
  | h, _, [], _, _, _ => some h
  | h, a, kv :: rest, head, tail, vA =>
    if kv.1 = head ∧ tail = [] then do
      let cp ← deepcopyH copyFuel h vA
      let h1 := cp.1
      match hget h1 a with
      | some (.hdict cur) =>
        propFieldsHWith rec2 copyFuel (hset h1 a (.hdict (pyDictSet cur kv.1 cp.2))) a
          rest head tail vA
      | _ => none
    else do
      let h1 ← if kv.1 = head then rec2 h kv.2 tail vA else some h
      let h2 ←
        match hget h1 kv.2 with
        | some (.hdict _) => rec2 h1 kv.2 (head :: tail) vA
        | some (.hlist xs) => propSeqHWith rec2 h1 xs (head :: tail) vA
        | _ => some h1
      propFieldsHWith rec2 copyFuel h2 a rest head tail vA

/-- `_propagate` at the heap level (identity normalisation), fuel-driven via
`Nat.rec`: mutate every matched path occurrence to a deep copy of the value,
then keep searching deeper (dict values directly, dict elements of list
values). -/
def propagateH (fuel : Nat) : Heap → Addr → List Str → Addr → Option Heap :=
  Nat.rec (motive := fun _ => Heap → Addr → List Str → Addr → Option Heap)
    (fun _ _ _ _ => none)
    (fun f ih h a path vA =>
      match path with
      | [] => some h
      | head :: tail =>
        match hget h a with
        | some (.hdict kvs) => propFieldsHWith ih f h a kvs head tail vA
        | _ => some h)
    fuel

/-- `get_value_at_path` at the heap level: `.get(key, {})` allocates a fresh
empty dict default; a `None` value short-circuits to Python `None`. -/
def getPathH : Nat → Heap → Addr → List Str → Option (Heap × Option Addr)
  | 0, _, _, _ => none
  | _ + 1, h, a, [] => some (h, some a)
  | fuel + 1, h, a, k :: rest =>
    match hget h a with
    | some (.hdict kvs) =>
      match pyDictGet kvs k with
      | some w =>
        match hget h w with
        | some .hnull => some (h, none)
        | _ => getPathH fuel h w rest
      | none =>
        let fresh := halloc h (.hdict [])
        getPathH fuel fresh.1 fresh.2 rest
    | _ => none

/-- `set_value_at_path` at the heap level: `setdefault` walk, then a raw
address assignment at the last key — the written value is **not** copied, so
the destination dict ends up sharing the object passed in. -/
def setPathH : Nat → Heap → Addr → List Str → Addr → Option Heap
  | 0, _, _, _, _ => none
  | _ + 1, _, _, [], _ => none
  | _ + 1, h, a, [k], vA =>
    match hget h a with
    | some (.hdict kvs) => some (hset h a (.hdict (pyDictSet kvs k vA)))
    | _ => none
  | fuel + 1, h, a, k :: k2 :: rest, vA =>
    match hget h a with
    | some (.hdict kvs) =>
      match pyDictGet kvs k with
      | some w => setPathH fuel h w (k2 :: rest) vA
      | none =>
        let fresh := halloc h (.hdict [])
        setPathH fuel (hset fresh.1 a (.hdict (pyDictSet kvs k fresh.2))) fresh.2
          (k2 :: rest) vA
    | _ => none

/-- `deep_merge_configs` at the heap level (identity normalisation): deep-copy
the base, merge the incoming tree into the copy, apply the pending
propagations, then apply the remap table — reading each source path from
`incoming` and writing the resulting object, uncopied, into the result. -/
def deepMergeH (fuel : Nat) (configMap : List (Str × Str)) (h : Heap)
    (baseA incomingA : Addr) : Option (Heap × Addr) := do
  let cp ← deepcopyH fuel h baseA
  let h := cp.1
  let resultA := cp.2
  let mg ← mergeH fuel h resultA incomingA []
  let h := mg.1
  let topLeaves ← leavesH fuel h [] incomingA
  let pending := mg.2 ++ topLeaves
  let h ← pending.foldlM (fun hh pr => propagateH fuel hh resultA pr.1 pr.2) h
  let h ← configMap.foldlM
    (fun hh pr => do
      let g ← getPathH fuel hh incomingA (splitOnChar '.' pr.2)
      match g.2 with
      | none => pure g.1
      | some vA => setPathH fuel g.1 resultA (splitOnChar '.' pr.1) vA)
    h
  pure (h, resultA)

/-- Extract the pure value tree rooted at an address. -/
def readH : Nat → Heap → Addr → Option Cfg
  | 0, _, _ => none
  | fuel + 1, h, a =>
    match hget h a with
    | some (.hint i) => some (.leaf (.int i))
    | some .hnull => some (.leaf .null)
    | some (.hdict kvs) =>
      (kvs.foldrM
        (fun (kv : Str × Addr) (acc : Fields) => do
          let c ← readH fuel h kv.2
          pure (Fields.cons kv.1 c acc))
        .nil).map .node
    | some (.hlist xs) =>
      (xs.foldrM
        (fun (x : Addr) (acc : Elems) => do
          let c ← readH fuel h x
          pure (Elems.cons c acc))
        .nil).map .seq
    | none => none

/-! ## Specification-side machinery for the propagation property

Positions in a config tree are dict-key paths from the root; `valueAt` reads
them.  `GMatch p pos` captures exactly the positions whose value
`_propagate(result, p, v, norm)` (with identity normalisation) overwrites:
`p` is consumed left-to-right along `pos`, with arbitrary gap keys allowed
before and between the consumed keys, and `pos` ending at the key consuming
the last element of `p`. -/

/-- Read the config value at a dict-key path. -/
def valueAt (c : Cfg) : List Str → Option Cfg
  | [] => some c
  | k :: rest =>
    match c with
    | .node kvs =>
      match fget kvs k with
      | some v => valueAt v rest
      | none => none
    | _ => none

/-- The config tree that is a single dict chain along a path ending in a
value (the shape of an incoming tree updating exactly one path). -/
def chainCfg : List Str → Cfg → Cfg
  | [], v => v
  | k :: rest, v => .node (.cons k (chainCfg rest v) .nil)

/-- Whether a config value is a scalar leaf. -/
def isLeafB : Cfg → Bool
  | .leaf _ => true
  | _ => false

/-- The positions overwritten by `_propagate` with path `p` (identity
normalisation): the path is consumed in order along the position, with
arbitrary gap keys interleaved, and the position ends with the key that
consumes the last path element. -/
inductive GMatch : List Str → List Str → Prop
  | exact (k : Str) : GMatch [k] [k]
  | consume {t pos : List Str} (h : Str) : GMatch t pos → GMatch (h :: t) (h :: pos)
  | gap {p pos : List Str} (k : Str) : GMatch p pos → GMatch p (k :: pos)

/-- Generic bounded check over every dict field reachable in a config tree
(descending into dict values and into sequence elements): `pred` must hold of
every field, and exhausted fuel conservatively fails.  Parameterised by the
recursive check of the next fuel level. -/
def allFieldsPredWith (rec2 : Cfg → Bool) (pred : Str → Cfg → Bool) : Fields → Bool
  | .nil => true
  | .cons k v rest => pred k v && rec2 v && allFieldsPredWith rec2 pred rest

/-- Generic bounded check over sequence elements, parameterised by the
recursive check of the next fuel level. -/
def allElemsPredWith (rec2 : Cfg → Bool) : Elems → Bool
  | .nil => true
  | .cons x rest => rec2 x && allElemsPredWith rec2 rest

/-- Bounded universally-quantified field check (`Nat.rec` so it
kernel-reduces); exhausted fuel returns `false` on any container, so a `true`
result never hides unchecked structure. -/
def allDictFieldsB (pred : Str → Cfg → Bool) (fuel : Nat) : Cfg → Bool :=
  Nat.rec (motive := fun _ => Cfg → Bool)
    (fun c => match c with | .leaf _ => true | _ => false)
    (fun _ ih c =>
      match c with
      | .leaf _ => true
      | .node kvs => allFieldsPredWith ih pred kvs
      | .seq xs => allElemsPredWith ih xs)
    fuel

/-- Every dict field named `k` anywhere in the tree holds a scalar leaf.
This is the decidable sufficient condition under which the propagation
fan-out can only replace scalar leaves (every `GMatch` end consumes the last
element of the path as a field key). -/
def keyLeafOnlyB (k : Str) (fuel : Nat) (c : Cfg) : Bool :=
  allDictFieldsB (fun k2 v => !(decide (k2 = k)) || isLeafB v) fuel c

/-- Bounded dict-depth check: `depthLeB n c` guarantees that `n` propagation
fuel suffices below `c` (each dict or sequence level consumes one unit). -/
def depthLeB (fuel : Nat) (c : Cfg) : Bool :=
  allDictFieldsB (fun _ _ => true) fuel c

/-- Apply a per-field transformation to every field of a dict. -/
def fmapFields (F : Str → Cfg → Cfg) : Fields → Fields
  | .nil => .nil
  | .cons k v rest => .cons k (F k v) (fmapFields F rest)

/-- The per-field transformation performed by the field loop of `_propagate`
(identity normalisation). -/
def propValue (rec2 : Cfg → List Str → Cfg → Cfg) (head : Str) (tail : List Str)
    (v : Cfg) (k : Str) (val : Cfg) : Cfg :=
  if k = head ∧ tail = [] then v
  else
    let val1 := if k = head then rec2 val tail v else val
    let val2 :=
      match val1 with
      | .node _ => rec2 val1 (head :: tail) v
      | .seq xs => .seq (propElemsWith rec2 (head :: tail) v xs)
      | other => other
    val2

/-- The field list of the single-chain config `chainCfg p v` for nonempty `p`. -/
def chainFieldsOf (p : List Str) (v : CLeaf) : Fields :=
  match p with
  | [] => .nil
  | k :: rest => .cons k (chainCfg rest (.leaf v)) .nil

/-- The mapped channel token computed inside `_transform_hcp_bounds` for one
grouped-dict key: `channel_map.get(channel_raw.upper(), channel_raw.upper()).replace(" ", "_")`
where `channel_raw = str(channel_tuple).replace("_", " ").strip().lower()`. -/
def transformMappedChannel (ch : Str) : Str :=
  let channelRaw := strLower (pyTrim (pyReplace ch (lit "_") (lit " ")))
  pyReplace
    ((pyDictGet channelMapPairs (strUpper channelRaw)).getD (strUpper channelRaw))
    (lit " ") (lit "_")

/-- Concrete heap for the frame-condition analysis of `deep_merge_configs`:
base `{}` at address 0 and incoming `{s: {}, t: 5}` at address 1, with the
inner empty dict at address 2 and the integer at address 3. -/
def mergeSampleHeap : Heap :=
  ⟨4, [(0, .hdict []), (1, .hdict [(lit "s", 2), (lit "t", 3)]), (2, .hdict []),
    (3, .hint 5)]⟩

/-- Concrete remap table (`d` from `s`, then `d.x` from `t`) for the
frame-condition analysis. -/
def mergeSampleRemap : List (Str × Str) := [(lit "d", lit "s"), (lit "d.x", lit "t")]

/-! ## Theorems

General lemmas about the Python-dict model, then the claim theorems. -/

/-- Reading from the overwrite branch of a dict write. -/
theorem pyDictGet_map_overwrite {κ α : Type} [DecidableEq κ] (d : List (κ × α))
    (k2 k : κ) (v : α) :
    pyDictGet (d.map (fun kv => if kv.1 = k2 then (kv.1, v) else kv)) k =
      if k = k2 then (if d.any (fun kv => decide (kv.1 = k2)) then some v else none)
      else pyDictGet d k := by
  induction d with
  | nil => by_cases hk : k = k2 <;> simp [pyDictGet, hk]
  | cons hd tl ih =>
    obtain ⟨k1, v1⟩ := hd
    by_cases h1 : k1 = k2 <;> by_cases h3 : k1 = k
    · have hk : k = k2 := by rw [← h3, h1]
      simp [pyDictGet, List.find?, h1, h3, hk]
    · have hk : ¬ k = k2 := fun h => h3 (by rw [h1, h])
      simp only [List.map_cons, if_pos h1, pyDictGet, List.find?, List.any_cons,
        h3, decide_eq_true_eq, if_neg h3]
      simpa [pyDictGet, hk] using ih
    · have hk : ¬ k = k2 := fun h => h1 (by rw [h3, h])
      simp [pyDictGet, List.find?, h1, h3, hk]
    · simp only [List.map_cons, if_neg h1, pyDictGet, List.find?, List.any_cons,
        h3, decide_eq_true_eq, if_neg h3, if_neg h1]
      have hd1 : decide (k1 = k2) = false := by simp [h1]
      simp only [hd1, Bool.false_or]
      by_cases hk : k = k2
      · simpa [pyDictGet, hk] using ih
      · simpa [pyDictGet, hk] using ih

/-- Reading a key after a dict write: the written key yields the written
value, every other key is unaffected. -/
theorem pyDictGet_set {κ α : Type} [DecidableEq κ] (d : List (κ × α)) (k2 k : κ) (v : α) :
    pyDictGet (pyDictSet d k2 v) k = if k = k2 then some v else pyDictGet d k := by
  unfold pyDictSet
  by_cases hany : d.any (fun kv => decide (kv.1 = k2))
  · rw [if_pos hany, pyDictGet_map_overwrite, if_pos hany]
  · rw [if_neg hany]
    by_cases hk : k = k2
    · subst hk
      have hnone : List.find? (fun kv => decide (kv.1 = k)) d = none := by
        rw [List.find?_eq_none]
        intro kv hkv
        simp only [List.any_eq_true, not_exists, not_and] at hany
        simpa using hany kv hkv
      rw [if_pos rfl, pyDictGet, List.find?_append, hnone]
      simp [List.find?]
    · rw [if_neg hk, pyDictGet, List.find?_append]
      have hone : List.find? (fun kv => decide (kv.1 = k)) [(k2, v)] = none := by
        simp [List.find?, show ¬ (k2 = k) from fun h : k2 = k => hk h.symm]
      rw [hone, pyDictGet]
      cases List.find? (fun kv => decide (kv.1 = k)) d <;> rfl

/-- Reading a dict built by folding writes whose value is a function of the
key: a key written at least once reads back its function value. -/
theorem pyDictGet_foldl_set {α : Type} (f : Str → α) (l : List Str)
    (init : List (Str × α)) (k : Str) :
    pyDictGet (l.foldl (fun acc r => pyDictSet acc r (f r)) init) k =
      if k ∈ l then some (f k) else pyDictGet init k := by
  induction l generalizing init with
  | nil => simp
  | cons r rest ih =>
    rw [List.foldl_cons, ih]
    by_cases hmem : k ∈ rest
    · simp [hmem]
    · rw [if_neg hmem, pyDictGet_set]
      by_cases hkr : k = r
      · subst hkr; simp
      · simp [hkr, hmem, List.mem_cons]

/-- CLAIM C10.  A bare `REP_<token>` key of the channel column whose raw
label matches no entry of the bundle's daily-capacity map does not make the
Capacity Compiler fail: the `for/else` fallback silently uses `0.0` and the
key is emitted with prorated value `0` (given a positive cycle-month count;
a zero month count would raise `ZeroDivisionError` for every key). -/
theorem capacity_missing_channel_zero
    (channels multibrandChannels : List Channel) (brands : List Str)
    (salesLine : Str) (dailyCapacity : List (Channel × ℚ)) (workingDays months : ℕ)
    (k : Str)
    (hk : k ∈ (buildInteractionChannels channels multibrandChannels brands).2.2)
    (hmiss : ∀ cv ∈ dailyCapacity, channelCanonical cv.1.str ≠ capacityRawLabel k)
    (_hm : 0 < months) :
    ∃ inner,
      pyDictGet
          (buildCapacityConstraints salesLine
            (buildInteractionChannels channels multibrandChannels brands).2.2
            dailyCapacity workingDays months)
          salesLine = some inner ∧
      pyDictGet inner k = some 0 := by
  have hval : capacityValueFor dailyCapacity (capacityRawLabel k) = 0 := by
    unfold capacityValueFor
    rw [List.find?_eq_none.mpr]
    · rfl
    · intro cv hcv
      simpa using hmiss cv hcv
  refine ⟨((buildInteractionChannels channels multibrandChannels brands).2.2).foldl
      (fun acc rep => pyDictSet acc rep
        (pythonInt (capacityValueFor dailyCapacity (capacityRawLabel rep) *
          (workingDays : ℚ) / (months : ℚ)))) [], ?_, ?_⟩
  · simp [buildCapacityConstraints, pyDictGet, List.find?]
  · rw [pyDictGet_foldl_set (fun rep => pythonInt (capacityValueFor dailyCapacity
      (capacityRawLabel rep) * (workingDays : ℚ) / (months : ℚ))), if_pos hk, hval]
    norm_num [pythonInt]

/-- Witness for C10: with `Remote` as the only capacity entry, the
`REP_FACE_TO_FACE` key resolves no capacity and is emitted as `0`. -/
theorem capacity_missing_channel_zero_witness :
    (lit "REP_FACE_TO_FACE" ∈ (buildInteractionChannels [.f2f] [] [lit "A"]).2.2) ∧
    (∀ cv ∈ [((.remote : Channel), (3 : ℚ))],
      channelCanonical cv.1.str ≠ capacityRawLabel (lit "REP_FACE_TO_FACE")) ∧
    (0 < 1) ∧
    (∃ inner,
      pyDictGet
          (buildCapacityConstraints (lit "SL")
            (buildInteractionChannels [.f2f] [] [lit "A"]).2.2 [(.remote, 3)] 20 1)
          (lit "SL") = some inner ∧
      pyDictGet inner (lit "REP_FACE_TO_FACE") = some 0) :=
  ⟨by decide, by decide, by decide,
    capacity_missing_channel_zero [.f2f] [] [lit "A"] (lit "SL") [(.remote, 3)] 20 1
      (lit "REP_FACE_TO_FACE") (by decide) (by decide) (by decide)⟩

/-- CLAIM C7.  The warehouse channel resolver substitutes the
consent-qualified label before the id lookup: for every channel list and
e-consent flag the id pipeline is `get_channel_id` applied to the
`map_channels_with_consent` output; `"RTE-Open"` maps to
`"RTE WITH CONSENT"` under e-consent true and to `"RTE WITHOUT CONSENT"`
under e-consent false, the subsequent id lookup is performed on that
substituted label for every reference table, and in particular a table
carrying both an `RTE WITH CONSENT` row and an `RTE-OPEN` row resolves to
the consent-qualified row. -/
theorem rte_consent_substitution :
    (∀ (chs : List Str) (econsent : Bool) (df : List (Str × ℤ)),
      channelIdsFor chs econsent df =
        (mapChannelsWithConsent chs econsent).map (fun ch => getChannelId ch df)) ∧
    mapChannelsWithConsent [lit "RTE-Open"] true = [lit "RTE WITH CONSENT"] ∧
    mapChannelsWithConsent [lit "RTE-Open"] false = [lit "RTE WITHOUT CONSENT"] ∧
    (∀ df : List (Str × ℤ),
      channelIdsFor [lit "RTE-Open"] true df =
        [getChannelId (lit "RTE WITH CONSENT") df]) ∧
    (∀ df : List (Str × ℤ),
      channelIdsFor [lit "RTE-Open"] false df =
        [getChannelId (lit "RTE WITHOUT CONSENT") df]) ∧
    channelIdsFor [lit "RTE-Open"] true
        [(lit "RTE WITH CONSENT", 7), (lit "RTE-OPEN", 9)] = [.ok 7] := by
  refine ⟨fun _ _ _ => rfl, by decide, by decide, ?_, ?_, by decide⟩
  · intro df
    show (mapChannelsWithConsent [lit "RTE-Open"] true).map
      (fun ch => getChannelId ch df) = _
    rw [show mapChannelsWithConsent [lit "RTE-Open"] true = [lit "RTE WITH CONSENT"]
      from by decide]
    rfl
  · intro df
    show (mapChannelsWithConsent [lit "RTE-Open"] false).map
      (fun ch => getChannelId ch df) = _
    rw [show mapChannelsWithConsent [lit "RTE-Open"] false = [lit "RTE WITHOUT CONSENT"]
      from by decide]
    rfl

/-- CLAIM C8 (code bug).  A brand-id lookup for `"DUPIXENT Asthma"` against a
reference table with no matching `(DUPIXENT, ASTHMA)` row does not raise the
lookup-miss `ValueError` naming both components that the non-DUPIXENT branch
raises: `output_mapping.py` never imports `streamlit`, so the
`st.error(...)` call on this path raises `NameError` instead.  A table that
does carry the row matching both brand `DUPIXENT` and indication `ASTHMA`
resolves normally, confirming that both components are required. -/
theorem dupixent_lookup_miss_name_error :
    getBrandId (lit "DUPIXENT Asthma") [] =
      .error (.nameError (lit "name st is not defined")) ∧
    (∀ e : Str, getBrandId (lit "DUPIXENT Asthma") [] ≠ .error (.valueError e)) ∧
    getBrandId (lit "DUPIXENT Asthma") [(lit "DUPIXENT", lit "ASTHMA", 42)] = .ok 42 ∧
    getBrandId (lit "DUPIXENT Asthma") [(lit "DUPIXENT", lit "COPD", 43)] =
      .error (.nameError (lit "name st is not defined")) :=
  ⟨by decide,
   fun e h => by
     rw [show getBrandId (lit "DUPIXENT Asthma") [] =
       .error (.nameError (lit "name st is not defined")) from by decide] at h
     simp at h,
   by decide, by decide⟩

/-- A dict write makes the written key readable. -/
theorem pyDictGet_set_self_isSome {κ α : Type} [DecidableEq κ] (d : List (κ × α))
    (k : κ) (v : α) : (pyDictGet (pyDictSet d k v) k).isSome := by
  rw [pyDictGet_set, if_pos rfl]; rfl

/-- A dict write keeps every readable key readable. -/
theorem pyDictGet_set_isSome_mono {κ α : Type} [DecidableEq κ] (d : List (κ × α))
    (k2 k : κ) (v : α) (h : (pyDictGet d k).isSome) :
    (pyDictGet (pyDictSet d k2 v) k).isSome := by
  rw [pyDictGet_set]
  by_cases hk : k = k2 <;> simp [hk, h]

/-- Every entry of a dict written only with the value `v` carries `v`. -/
theorem pyDictSet_allval {κ α : Type} [DecidableEq κ] (d : List (κ × α)) (k : κ) (v : α)
    (h : ∀ kv ∈ d, kv.2 = v) : ∀ kv ∈ pyDictSet d k v, kv.2 = v := by
  intro kv hkv
  unfold pyDictSet at hkv
  by_cases hany : d.any (fun e => decide (e.1 = k))
  · rw [if_pos hany] at hkv
    obtain ⟨e, he, hmap⟩ := List.mem_map.mp hkv
    by_cases h1 : e.1 = k
    · rw [if_pos h1] at hmap; rw [← hmap]
    · rw [if_neg h1] at hmap; rw [← hmap]; exact h e he
  · rw [if_neg hany] at hkv
    rcases List.mem_append.mp hkv with hl | hr
    · exact h kv hl
    · simp at hr; rw [hr]

/-- A readable key of an all-`v` dict reads `v`. -/
theorem pyDictGet_allval {κ α : Type} [DecidableEq κ] (d : List (κ × α)) (k : κ) (v : α)
    (hall : ∀ kv ∈ d, kv.2 = v) (h : (pyDictGet d k).isSome) :
    pyDictGet d k = some v := by
  unfold pyDictGet at *
  cases hfind : d.find? (fun kv => decide (kv.1 = k)) with
  | none => rw [hfind] at h; simp at h
  | some kv =>
    have hmem := List.mem_of_find?_eq_some hfind
    simp [hall kv hmem]

/-- The per-rule single-brand write loop of `_transform_hcp_bounds` (given
any starting dict): every step either writes value `v` or leaves the dict
unchanged, so readability is monotone. -/
theorem transform_brand_fold_isSome {α : Type} (bm : List (Str × Str))
    (keyf : Str → Str) (v : α) (l : List Str) (d : List (Str × α)) (k : Str)
    (h : (pyDictGet d k).isSome) :
    (pyDictGet
      (l.foldl (fun t b =>
        match pyDictGet bm b with
        | some lab => pyDictSet t (keyf lab) v
        | none => t) d) k).isSome := by
  induction l generalizing d with
  | nil => exact h
  | cons b rest ih =>
    rw [List.foldl_cons]
    apply ih
    cases hlab : pyDictGet bm b with
    | none => simpa [hlab] using h
    | some lab => simp only [hlab]; exact pyDictGet_set_isSome_mono _ _ _ _ h

/-- After the single-brand write loop, the key of every brand present in the
brand map is readable. -/
theorem transform_brand_fold_mem {α : Type} (bm : List (Str × Str))
    (keyf : Str → Str) (v : α) (l : List Str) (d : List (Str × α)) (b : Str) (lab : Str)
    (hb : b ∈ l) (hlab : pyDictGet bm b = some lab) :
    (pyDictGet
      (l.foldl (fun t b2 =>
        match pyDictGet bm b2 with
        | some lab2 => pyDictSet t (keyf lab2) v
        | none => t) d) (keyf lab)).isSome := by
  induction l generalizing d with
  | nil => cases hb
  | cons x rest ih =>
    rw [List.foldl_cons]
    rcases List.mem_cons.mp hb with hbx | hbr
    · subst hbx
      apply transform_brand_fold_isSome
      rw [hlab]
      exact pyDictGet_set_self_isSome _ _ _
    · exact ih _ hbr

/-- The combination write loop of `_transform_hcp_bounds` is monotone for
readability. -/
theorem transform_combo_fold_isSome {α : Type} (bm : List (Str × Str))
    (keyf : List Str → Str) (v : α) (l : List (List Str)) (d : List (Str × α)) (k : Str)
    (h : (pyDictGet d k).isSome) :
    (pyDictGet
      (l.foldl (fun t combo =>
        match combo.mapM (pyDictGet bm) with
        | some labs => pyDictSet t (keyf labs) v
        | none => t) d) k).isSome := by
  induction l generalizing d with
  | nil => exact h
  | cons c rest ih =>
    rw [List.foldl_cons]
    apply ih
    cases hlabs : c.mapM (pyDictGet bm) with
    | none => simpa [hlabs] using h
    | some labs => simp only [hlabs]; exact pyDictGet_set_isSome_mono _ _ _ _ h

/-- The single-brand write loop of one `_transform_hcp_bounds` rule writes
only the rule value. -/
theorem transform_brand_fold_allval {α : Type} (bm : List (Str × Str))
    (keyf : Str → Str) (v : α) (l : List Str) (d : List (Str × α))
    (hall : ∀ kv ∈ d, kv.2 = v) :
    ∀ kv ∈ (l.foldl (fun t b =>
        match pyDictGet bm b with
        | some lab => pyDictSet t (keyf lab) v
        | none => t) d), kv.2 = v := by
  induction l generalizing d with
  | nil => exact hall
  | cons b rest ih =>
    rw [List.foldl_cons]
    refine ih _ ?_
    cases hlab : pyDictGet bm b with
    | none => exact hall
    | some lab => simp only [hlab]; exact pyDictSet_allval _ _ _ hall

/-- The combination write loop of one `_transform_hcp_bounds` rule writes
only the rule value. -/
theorem transform_combo_fold_allval {α : Type} (bm : List (Str × Str))
    (keyf : List Str → Str) (v : α) (l : List (List Str)) (d : List (Str × α))
    (hall : ∀ kv ∈ d, kv.2 = v) :
    ∀ kv ∈ (l.foldl (fun t combo =>
        match combo.mapM (pyDictGet bm) with
        | some labs => pyDictSet t (keyf labs) v
        | none => t) d), kv.2 = v := by
  induction l generalizing d with
  | nil => exact hall
  | cons c rest ih =>
    rw [List.foldl_cons]
    refine ih _ ?_
    cases hlabs : c.mapM (pyDictGet bm) with
    | none => exact hall
    | some labs => simp only [hlabs]; exact pyDictSet_allval _ _ _ hall

/-- Keys not written by the brand-map worker read through unchanged. -/
theorem brandMapAux_get_of_not_mem (i : Nat) (l : List Str) (d : List (Str × Str))
    (b : Str) (hb : b ∉ l) :
    pyDictGet (brandMapAux i l d) b = pyDictGet d b := by
  induction l generalizing i d with
  | nil => rfl
  | cons x rest ih =>
    rw [brandMapAux, ih (i + 1) _ (fun h => hb (List.mem_cons_of_mem x h)),
      pyDictGet_set, if_neg (fun h : b = x => hb (by rw [h]; exact List.mem_cons_self x rest))]

/-- Under a duplicate-free brand list, the brand map assigns the ordinal
label of each brand's position. -/
theorem brandMapAux_get_of_getElem (i : Nat) (l : List Str) (d : List (Str × Str))
    (hnd : l.Nodup) (j : Nat) (hj : j < l.length) :
    pyDictGet (brandMapAux i l d) l[j] = some (brandLabel (i + j)) := by
  induction l generalizing i d j with
  | nil => simp at hj
  | cons x rest ih =>
    rw [brandMapAux]
    cases j with
    | zero =>
      have hx : x ∉ rest := (List.nodup_cons.mp hnd).1
      rw [show (x :: rest)[0] = x from rfl,
        brandMapAux_get_of_not_mem _ _ _ _ hx, pyDictGet_set, if_pos rfl]
      simp
    | succ j2 =>
      have hj2 : j2 < rest.length := by simpa using hj
      have hgl : (x :: rest)[j2 + 1] = rest[j2] := by simp
      rw [hgl, ih (i + 1) (pyDictSet d x (brandLabel i)) (List.nodup_cons.mp hnd).2 j2
        hj2, show i + 1 + j2 = i + (j2 + 1) by omega]

/-- Every listed brand is present in the brand map. -/
theorem brandMapPairs_isSome (brands : List Str) (b : Str) (hb : b ∈ brands) :
    (pyDictGet (brandMapPairs brands) b).isSome := by
  unfold brandMapPairs
  suffices h : ∀ (i : Nat) (d : List (Str × Str)),
      b ∈ brands ∨ (pyDictGet d b).isSome →
      (pyDictGet (brandMapAux i brands d) b).isSome by
    exact h 0 [] (Or.inl hb)
  clear hb
  induction brands with
  | nil =>
    intro i d h
    rcases h with h | h
    · cases h
    · exact h
  | cons x rest ih =>
    intro i d h
    rw [brandMapAux]
    by_cases hbr : b ∈ rest
    · exact ih (i + 1) _ (Or.inl hbr)
    · refine ih (i + 1) _ (Or.inr ?_)
      rcases h with h | h
      · rcases List.mem_cons.mp h with hbx | hbr2
        · subst hbx
          exact pyDictGet_set_self_isSome _ _ _
        · exact absurd hbr2 hbr
      · exact pyDictGet_set_isSome_mono _ _ _ _ h

/-- CLAIM C2 counterexample.  The historical envelope rule `(F2F, bucket 1,
bounds [1,3])` with brands `["A", "B"]` and no multibrand-eligible channels
does not produce `REP_FACE_TO_FACE_BRAND1 -> [1,3]` and
`REP_FACE_TO_FACE_BRAND2 -> [1,3]`: the grouped rule value that the
transformer copies is the bucket table `{"1": [1,3]}`, not the bare bound
list. -/
theorem envelope_value_shape_counterexample :
    ¬ (pyDictGet (envelopeRulesHistorical [(lit "F2F", 1, 1, 3)] [lit "A", lit "B"] [])
        (lit "REP_FACE_TO_FACE_BRAND1") = some (EnvVal.bounds [1, 3]) ∧
      pyDictGet (envelopeRulesHistorical [(lit "F2F", 1, 1, 3)] [lit "A", lit "B"] [])
        (lit "REP_FACE_TO_FACE_BRAND2") = some (EnvVal.bounds [1, 3])) := by
  decide

/-- CLAIM C2 (amended).  In historical mode the Envelope Transformer assigns
the same rule value — the rule's bucket-to-bounds table, not a bare bound
list — to the bare channel key and to every single-brand interaction key of
that channel (and to the brand-combination keys when the channel is
multibrand-eligible): for a single grouped rule, the bare key and the key of
every listed brand read back exactly the rule value, and the concrete
scenario yields `REP_FACE_TO_FACE_BRAND1` and `REP_FACE_TO_FACE_BRAND2`
both bound to the bucket table `{"1": [1, 3]}` (with the combination key
receiving the same table when `F2F` is multibrand-eligible). -/
theorem envelope_rules_replication
    (α : Type) (val : α) (brands : List Str) (mc : List Str) (ch : Str)
    (b : Str) (hb : b ∈ brands) :
    (pyDictGet (transformHcpBounds [(ch, val)] brands mc)
        (lit "REP_" ++ transformMappedChannel ch) = some val ∧
      ∃ lab, pyDictGet (brandMapPairs brands) b = some lab ∧
        pyDictGet (transformHcpBounds [(ch, val)] brands mc)
          (lit "REP_" ++ transformMappedChannel ch ++ '_' :: lab) = some val) ∧
    pyDictGet (envelopeRulesHistorical [(lit "F2F", 1, 1, 3)] [lit "A", lit "B"] [])
        (lit "REP_FACE_TO_FACE_BRAND1") = some (.table [(lit "1", [1, 3])]) ∧
    pyDictGet (envelopeRulesHistorical [(lit "F2F", 1, 1, 3)] [lit "A", lit "B"] [])
        (lit "REP_FACE_TO_FACE_BRAND2") = some (.table [(lit "1", [1, 3])]) ∧
    pyDictGet (envelopeRulesHistorical [(lit "F2F", 1, 1, 3)] [lit "A", lit "B"] [])
        (lit "REP_FACE_TO_FACE") = some (.table [(lit "1", [1, 3])]) ∧
    pyDictGet (envelopeRulesHistorical [(lit "F2F", 1, 1, 3)] [lit "A", lit "B"] [lit "F2F"])
        (lit "REP_FACE_TO_FACE_BRAND1_AND_BRAND2") = some (.table [(lit "1", [1, 3])]) := by
  refine ⟨?_, by decide, by decide, by decide, by decide⟩
  have hunf : transformHcpBounds [(ch, val)] brands mc =
      (if (mc.map (fun c => pyTrim (pyReplace (strLower c) (lit "_") (lit " ")))).any
          (fun x => decide (x = strLower (pyTrim (pyReplace ch (lit "_") (lit " ")))))
        then getCombinations brands else brands.map (fun b2 => [b2])).foldl
        (fun t combo =>
          match combo.mapM (pyDictGet (brandMapPairs brands)) with
          | some labs =>
            pyDictSet t
              (lit "REP_" ++ transformMappedChannel ch ++ '_' :: pyJoin (lit "_AND_") labs)
              val
          | none => t)
        (pyDictSet
          (brands.foldl
            (fun t b2 =>
              match pyDictGet (brandMapPairs brands) b2 with
              | some lab => pyDictSet t (lit "REP_" ++ transformMappedChannel ch ++ '_' :: lab) val
              | none => t)
            [])
          (lit "REP_" ++ transformMappedChannel ch) val) := rfl
  have hall : ∀ kv ∈ transformHcpBounds [(ch, val)] brands mc, kv.2 = val := by
    rw [hunf]
    apply transform_combo_fold_allval
    apply pyDictSet_allval
    apply transform_brand_fold_allval
    intro kv hkv
    cases hkv
  constructor
  · apply pyDictGet_allval _ _ _ hall
    rw [hunf]
    apply transform_combo_fold_isSome
    exact pyDictGet_set_self_isSome _ _ _
  · obtain ⟨lab, hlab⟩ := Option.isSome_iff_exists.mp (brandMapPairs_isSome brands b hb)
    refine ⟨lab, hlab, ?_⟩
    apply pyDictGet_allval _ _ _ hall
    rw [hunf]
    apply transform_combo_fold_isSome
    apply pyDictGet_set_isSome_mono
    exact transform_brand_fold_mem (brandMapPairs brands)
      (fun lab2 => lit "REP_" ++ transformMappedChannel ch ++ '_' :: lab2) val brands [] b lab hb hlab

/-- Witness for the amended C2: brand `B` of `["A", "B"]` and a rule on
channel `F2F` with value `5`. -/
theorem envelope_rules_replication_witness :
    ((lit "B") ∈ [lit "A", lit "B"]) ∧
    ((pyDictGet (transformHcpBounds [(lit "F2F", (5 : ℤ))] [lit "A", lit "B"] [])
        (lit "REP_" ++ transformMappedChannel (lit "F2F")) = some 5 ∧
      ∃ lab, pyDictGet (brandMapPairs [lit "A", lit "B"]) (lit "B") = some lab ∧
        pyDictGet (transformHcpBounds [(lit "F2F", (5 : ℤ))] [lit "A", lit "B"] [])
          (lit "REP_" ++ transformMappedChannel (lit "F2F") ++ '_' :: lab) = some 5) ∧
    pyDictGet (envelopeRulesHistorical [(lit "F2F", 1, 1, 3)] [lit "A", lit "B"] [])
        (lit "REP_FACE_TO_FACE_BRAND1") = some (.table [(lit "1", [1, 3])]) ∧
    pyDictGet (envelopeRulesHistorical [(lit "F2F", 1, 1, 3)] [lit "A", lit "B"] [])
        (lit "REP_FACE_TO_FACE_BRAND2") = some (.table [(lit "1", [1, 3])]) ∧
    pyDictGet (envelopeRulesHistorical [(lit "F2F", 1, 1, 3)] [lit "A", lit "B"] [])
        (lit "REP_FACE_TO_FACE") = some (.table [(lit "1", [1, 3])]) ∧
    pyDictGet (envelopeRulesHistorical [(lit "F2F", 1, 1, 3)] [lit "A", lit "B"] [lit "F2F"])
        (lit "REP_FACE_TO_FACE_BRAND1_AND_BRAND2") = some (.table [(lit "1", [1, 3])])) :=
  ⟨by decide, envelope_rules_replication ℤ 5 [lit "A", lit "B"] [] (lit "F2F") (lit "B")
    (by decide)⟩

theorem combos_length {α : Type} (l : List α) : ∀ (r : Nat),
    (combos r l).length = l.length.choose r := by
  induction l with
  | nil =>
    intro r
    cases r with
    | zero => rfl
    | succ r => rfl
  | cons x xs ih =>
    intro r
    cases r with
    | zero => rfl
    | succ r =>
      simp only [combos, List.length_append, List.length_map, ih r, ih (r + 1),
        List.length_cons, Nat.choose_succ_succ]

theorem combos_mem_spec {α : Type} (l : List α) : ∀ (r : Nat) (c : List α),
    c ∈ combos r l → c.length = r ∧ c.Sublist l := by
  induction l with
  | nil =>
    intro r c hc
    cases r with
    | zero =>
      simp only [combos, List.mem_singleton] at hc
      subst hc
      exact ⟨rfl, List.Sublist.refl _⟩
    | succ r => simp [combos] at hc
  | cons x xs ih =>
    intro r c hc
    cases r with
    | zero =>
      simp only [combos, List.mem_singleton] at hc
      subst hc
      exact ⟨rfl, List.nil_sublist _⟩
    | succ r =>
      simp only [combos, List.mem_append, List.mem_map] at hc
      rcases hc with ⟨c1, hc1, rfl⟩ | hc
      · obtain ⟨hlen, hsub⟩ := ih r c1 hc1
        exact ⟨by simp [hlen], List.Sublist.cons₂ x hsub⟩
      · obtain ⟨hlen, hsub⟩ := ih (r + 1) c hc
        exact ⟨hlen, hsub.cons x⟩

theorem idxOf_cons_self {α : Type} [DecidableEq α] (x : α) (l : List α) :
    idxOf (x :: l) x = 0 := by
  simp [idxOf]

theorem idxOf_cons_ne {α : Type} [DecidableEq α] (x a : α) (l : List α)
    (h : x ≠ a) : idxOf (x :: l) a = idxOf l a + 1 := by
  simp [idxOf, h]

theorem lexIdxB_mono {α : Type} [DecidableEq α] (x : α) (xs : List α)
    (hx : x ∉ xs) : ∀ (c1 c2 : List α), (∀ a ∈ c1, a ∈ xs) →
    (∀ a ∈ c2, a ∈ xs) → lexIdxB xs c1 c2 = true →
    lexIdxB (x :: xs) c1 c2 = true := by
  intro c1
  induction c1 with
  | nil =>
    intro c2 _ _ h
    cases c2 with
    | nil => simp [lexIdxB] at h
    | cons b bs => simp [lexIdxB]
  | cons a as ih =>
    intro c2 h1 h2 h
    cases c2 with
    | nil => simp [lexIdxB] at h
    | cons b bs =>
      by_cases hab : a = b
      · subst hab
        simp only [lexIdxB, if_pos rfl] at h ⊢
        exact ih bs (fun y hy => h1 y (List.mem_cons_of_mem _ hy))
          (fun y hy => h2 y (List.mem_cons_of_mem _ hy)) h
      · have ha : a ∈ xs := h1 a (List.mem_cons_self _ _)
        have hb : b ∈ xs := h2 b (List.mem_cons_self _ _)
        have hxa : x ≠ a := fun he => hx (he ▸ ha)
        have hxb : x ≠ b := fun he => hx (he ▸ hb)
        simp only [lexIdxB, if_neg hab, decide_eq_true_eq] at h ⊢
        rw [idxOf_cons_ne x a xs hxa, idxOf_cons_ne x b xs hxb]
        omega

theorem combos_pairwise_lex {α : Type} [DecidableEq α] (l : List α) :
    l.Nodup → ∀ (r : Nat),
    (combos r l).Pairwise (fun c1 c2 => lexIdxB l c1 c2 = true) := by
  induction l with
  | nil =>
    intro _ r
    cases r with
    | zero => simp [combos]
    | succ r => exact List.Pairwise.nil
  | cons x xs ih =>
    intro hnd r
    obtain ⟨hx, hnd1⟩ := List.nodup_cons.mp hnd
    cases r with
    | zero => simp [combos]
    | succ r =>
      show (((combos r xs).map (x :: ·)) ++ combos (r + 1) xs).Pairwise _
      rw [List.pairwise_append]
      refine ⟨?_, ?_, ?_⟩
      · rw [List.pairwise_map]
        refine (ih hnd1 r).imp_of_mem ?_
        intro c1 c2 h1 h2 hlex
        have hm : lexIdxB (x :: xs) c1 c2 = true :=
          lexIdxB_mono x xs hx c1 c2
            (fun a ha => ((combos_mem_spec xs r c1 h1).2).mem ha)
            (fun a ha => ((combos_mem_spec xs r c2 h2).2).mem ha) hlex
        simpa [lexIdxB] using hm
      · refine (ih hnd1 (r + 1)).imp_of_mem ?_
        intro c1 c2 h1 h2 hlex
        exact lexIdxB_mono x xs hx c1 c2
          (fun a ha => ((combos_mem_spec xs (r + 1) c1 h1).2).mem ha)
          (fun a ha => ((combos_mem_spec xs (r + 1) c2 h2).2).mem ha) hlex
      · intro c1 hc1 c2 hc2
        obtain ⟨c0, hc0, rfl⟩ := List.mem_map.mp hc1
        obtain ⟨hlen2, hsub2⟩ := combos_mem_spec xs (r + 1) c2 hc2
        cases c2 with
        | nil => simp at hlen2
        | cons b bs =>
          have hb : b ∈ xs := hsub2.mem (List.mem_cons_self _ _)
          have hxb : x ≠ b := fun he => hx (he ▸ hb)
          simp only [lexIdxB, if_neg hxb, decide_eq_true_eq]
          rw [idxOf_cons_self, idxOf_cons_ne x b xs hxb]
          omega

theorem pairwise_flatMap_of {α β : Type} (R : α → α → Prop) (f : β → List α) :
    ∀ (rs : List β), (∀ b ∈ rs, (f b).Pairwise R) →
    rs.Pairwise (fun b1 b2 => ∀ c1 ∈ f b1, ∀ c2 ∈ f b2, R c1 c2) →
    (rs.flatMap f).Pairwise R := by
  intro rs
  induction rs with
  | nil => intro _ _; exact List.Pairwise.nil
  | cons b bs ih =>
    intro hall hpw
    rw [List.flatMap_cons, List.pairwise_append]
    obtain ⟨hhead, htail⟩ := List.pairwise_cons.mp hpw
    refine ⟨hall b (List.mem_cons_self _ _),
      ih (fun b1 hb1 => hall b1 (List.mem_cons_of_mem _ hb1)) htail, ?_⟩
    intro c1 hc1 c2 hc2
    obtain ⟨b2, hb2, hc2m⟩ := List.mem_flatMap.mp hc2
    exact hhead b2 hb2 c1 hc1 c2 hc2m

theorem range_pairwise_lt : ∀ (n s : Nat),
    (List.range' s n).Pairwise (fun a b => a < b) := by
  intro n
  induction n with
  | zero => intro s; exact List.Pairwise.nil
  | succ n ih =>
    intro s
    rw [List.range'_succ]
    refine List.pairwise_cons.mpr ⟨?_, ih (s + 1)⟩
    intro m hm
    obtain ⟨i, _, rfl⟩ := List.mem_range'.mp hm
    omega

theorem list_sum_map_range (f : Nat → Nat) : ∀ (n : Nat),
    ((List.range n).map f).sum = ∑ i ∈ Finset.range n, f i := by
  intro n
  induction n with
  | zero => rfl
  | succ n ih =>
    rw [List.range_succ, List.map_append, List.sum_append,
      Finset.sum_range_succ, ih]
    simp

theorem sum_choose_tail (n : Nat) :
    ((List.range' 2 (n + 1 - 2)).map (n.choose ·)).sum = 2 ^ n - n - 1 := by
  match n with
  | 0 => rfl
  | 1 => rfl
  | m + 2 =>
    have hr : List.range (m + 3) = 0 :: 1 :: List.range' 2 (m + 1) := by
      rw [List.range_eq_range']
      rfl
    have hb := Nat.sum_range_choose (m + 2)
    rw [← list_sum_map_range] at hb
    rw [hr] at hb
    simp only [List.map_cons, List.sum_cons, Nat.choose_zero_right,
      Nat.choose_one_right] at hb
    have he : List.range' 2 (m + 2 + 1 - 2) = List.range' 2 (m + 1) := by
      have h0 : m + 2 + 1 - 2 = m + 1 := by omega
      rw [h0]
    rw [he]
    have he2 : ((List.range' 2 (m + 1)).map fun x => (m + 2).choose x) =
        List.map (m + 2).choose (List.range' 2 (m + 1)) := rfl
    rw [he2]
    omega

theorem getCombinations_length {α : Type} (brands : List α) :
    (getCombinations brands).length = 2 ^ brands.length - brands.length - 1 := by
  unfold getCombinations
  rw [List.length_flatMap]
  have hm : List.map (List.length ∘ fun r => combos r brands)
      (List.range' 2 (brands.length + 1 - 2)) =
      List.map (brands.length.choose ·)
        (List.range' 2 (brands.length + 1 - 2)) := by
    apply List.map_congr_left
    intro r _
    exact combos_length brands r
  rw [hm, sum_choose_tail]

theorem getCombinations_mem {α : Type} (brands : List α) (c : List α)
    (hc : c ∈ getCombinations brands) : 2 ≤ c.length ∧ c.Sublist brands := by
  obtain ⟨r, hr, hcr⟩ := List.mem_flatMap.mp hc
  obtain ⟨i, _, rfl⟩ := List.mem_range'.mp hr
  obtain ⟨hlen, hsub⟩ := combos_mem_spec brands _ c hcr
  exact ⟨by omega, hsub⟩

theorem getCombinations_pairwise_le {α : Type} (brands : List α) :
    (getCombinations brands).Pairwise (fun c1 c2 => c1.length ≤ c2.length) := by
  apply pairwise_flatMap_of
  · intro r _
    apply List.pairwise_of_forall_mem_list
    intro c1 h1 c2 h2
    rw [(combos_mem_spec brands r c1 h1).1, (combos_mem_spec brands r c2 h2).1]
  · refine (range_pairwise_lt _ _).imp ?_
    intro r1 r2 hlt c1 hc1 c2 hc2
    rw [(combos_mem_spec brands r1 c1 hc1).1,
      (combos_mem_spec brands r2 c2 hc2).1]
    omega

theorem getCombinations_pairwise_ordered {α : Type} [DecidableEq α]
    (brands : List α) (hnd : brands.Nodup) :
    (getCombinations brands).Pairwise
      (fun c1 c2 => c1.length < c2.length ∨ lexIdxB brands c1 c2 = true) := by
  apply pairwise_flatMap_of
  · intro r _
    exact (combos_pairwise_lex brands hnd r).imp (fun h => Or.inr h)
  · refine (range_pairwise_lt _ _).imp ?_
    intro r1 r2 hlt c1 hc1 c2 hc2
    left
    rw [(combos_mem_spec brands r1 c1 hc1).1,
      (combos_mem_spec brands r2 c2 hc2).1]
    exact hlt

theorem getCombinations_small {α : Type} (brands : List α)
    (h : brands.length < 2) : getCombinations brands = [] := by
  unfold getCombinations
  have h0 : brands.length + 1 - 2 = 0 := by omega
  rw [h0]
  rfl

/-- CLAIM C4.  For every duplicate-free brand list of length `n`,
`BrandCombinator.get_combinations` returns exactly `2 ^ n - n - 1` tuples,
none of length below 2, ordered by weakly increasing subset size, and any two
tuples are ordered either by strictly smaller size or by the positional
lexicographic order induced by the input brand order (so same-size tuples
appear in the brands' relative order); for `n < 2` the result is empty, and a
repeated call on the same input returns the identical sequence. -/
theorem brand_combinations_spec (brands : List Str) (hnd : brands.Nodup) :
    (getCombinations brands).length = 2 ^ brands.length - brands.length - 1 ∧
    (∀ c ∈ getCombinations brands, 2 ≤ c.length) ∧
    ((getCombinations brands).map List.length).Sorted (· ≤ ·) ∧
    (getCombinations brands).Pairwise
      (fun c1 c2 => c1.length < c2.length ∨ lexIdxB brands c1 c2 = true) ∧
    (brands.length < 2 → getCombinations brands = []) ∧
    getCombinations brands = getCombinations brands := by
  refine ⟨getCombinations_length brands, ?_, ?_,
    getCombinations_pairwise_ordered brands hnd, getCombinations_small brands,
    rfl⟩
  · intro c hc
    exact (getCombinations_mem brands c hc).1
  · exact List.pairwise_map.mpr (getCombinations_pairwise_le brands)

/-- Witness for `brand_combinations_spec` at the concrete brand list
`["A", "B", "C"]`. -/
theorem brand_combinations_spec_witness :
    ([lit "A", lit "B", lit "C"] : List Str).Nodup ∧
    ((getCombinations [lit "A", lit "B", lit "C"]).length =
        2 ^ ([lit "A", lit "B", lit "C"] : List Str).length -
          ([lit "A", lit "B", lit "C"] : List Str).length - 1 ∧
      (∀ c ∈ getCombinations [lit "A", lit "B", lit "C"], 2 ≤ c.length) ∧
      ((getCombinations [lit "A", lit "B", lit "C"]).map List.length).Sorted
        (· ≤ ·) ∧
      (getCombinations [lit "A", lit "B", lit "C"]).Pairwise
        (fun c1 c2 => c1.length < c2.length ∨
          lexIdxB [lit "A", lit "B", lit "C"] c1 c2 = true) ∧
      (([lit "A", lit "B", lit "C"] : List Str).length < 2 →
        getCombinations [lit "A", lit "B", lit "C"] = []) ∧
      getCombinations ([lit "A", lit "B", lit "C"] : List Str) =
        getCombinations [lit "A", lit "B", lit "C"]) :=
  ⟨by decide, brand_combinations_spec [lit "A", lit "B", lit "C"] (by decide)⟩

/-- CLAIM C6 (code bug).  Merging the empty incoming dict into the base
`{x: {y: 5}}` is the identity while the static remap table is empty, but with
the single remap entry `x.y` from `a.b` the remap loop overwrites `x.y` with
`{}`: `get_value_at_path({}, "a.b")` returns the `.get` default `{}` rather
than `None`, so the `is not None` guard passes and `set_value_at_path`
clobbers the destination path — the no-op merge does not leave the base
structurally unchanged at the remap destinations. -/
theorem noop_merge_remap_clobber :
    deepMergeConfigs 30 []
        (.node (.cons (lit "x") (.node (.cons (lit "y") (.leaf (.int 5)) .nil)) .nil))
        (.node .nil) false =
      .ok (.node (.cons (lit "x") (.node (.cons (lit "y") (.leaf (.int 5)) .nil)) .nil)) ∧
    deepMergeConfigs 30 [(lit "x.y", lit "a.b")]
        (.node (.cons (lit "x") (.node (.cons (lit "y") (.leaf (.int 5)) .nil)) .nil))
        (.node .nil) false =
      .ok (.node (.cons (lit "x") (.node (.cons (lit "y") (.node .nil) .nil)) .nil)) ∧
    Cfg.node (.cons (lit "x") (.node (.cons (lit "y") (.node .nil) .nil)) .nil) ≠
      Cfg.node (.cons (lit "x") (.node (.cons (lit "y") (.leaf (.int 5)) .nil)) .nil) :=
  ⟨by decide, by decide, by decide⟩

/-- CLAIM C9 (code bug).  At the heap level `deep_merge_configs` writes each
remap-table value into the result uncopied: with base `{}` (address 0),
incoming `{s: {}, t: 5}` (address 1, whose `s` field holds the empty dict at
address 2) and the remap table `d` from `s` then `d.x` from `t`, the returned
result dict holds address 2 — incoming's own mutable dict — under `d`, and
the second remap entry writes through that alias, so after the call the
incoming argument reads back as `{s: {x: 5}, t: 5}`: the function mutates its
argument and the result shares mutable substructure with it. -/
theorem deep_merge_mutates_incoming :
    readH 20 mergeSampleHeap 1 =
      some (.node (.cons (lit "s") (.node .nil)
        (.cons (lit "t") (.leaf (.int 5)) .nil))) ∧
    hget mergeSampleHeap 1 = some (.hdict [(lit "s", 2), (lit "t", 3)]) ∧
    (deepMergeH 50 mergeSampleRemap mergeSampleHeap 0 1).map
        (fun pr => (pr.2, hget pr.1 pr.2)) =
      some (4, some (.hdict [(lit "s", 5), (lit "t", 3), (lit "d", 2)])) ∧
    ((deepMergeH 50 mergeSampleRemap mergeSampleHeap 0 1).bind
        fun pr => readH 20 pr.1 1) =
      some (.node (.cons (lit "s") (.node (.cons (lit "x") (.leaf (.int 5)) .nil))
        (.cons (lit "t") (.leaf (.int 5)) .nil))) ∧
    Cfg.node (.cons (lit "s") (.node (.cons (lit "x") (.leaf (.int 5)) .nil))
        (.cons (lit "t") (.leaf (.int 5)) .nil)) ≠
      Cfg.node (.cons (lit "s") (.node .nil)
        (.cons (lit "t") (.leaf (.int 5)) .nil)) :=
  ⟨by decide, by decide, by decide, by decide, by decide⟩

theorem digitVal_digitChar10 (d : Nat) (h : d < 10) :
    digitVal (digitChar10 d) = d := by
  interval_cases d <;> rfl

theorem digitChar10_ne_underscore (d : Nat) : digitChar10 d ≠ '_' := by
  unfold digitChar10
  split <;> decide

theorem digitChar10_ne_B (d : Nat) : digitChar10 d ≠ 'B' := by
  unfold digitChar10
  split <;> decide

theorem natCharsAux_zero (fuel : Nat) (acc : List Char) :
    natCharsAux fuel 0 acc = acc := by
  cases fuel with
  | zero => rfl
  | succ f => rfl

theorem natCharsAux_append (fuel : Nat) : ∀ (n : Nat) (acc : List Char),
    natCharsAux fuel n acc = natCharsAux fuel n [] ++ acc := by
  induction fuel with
  | zero => intro n acc; rfl
  | succ f ih =>
    intro n acc
    by_cases hn : n = 0
    · subst hn; rw [natCharsAux_zero, natCharsAux_zero]; rfl
    · show natCharsAux (f + 1) n acc = natCharsAux (f + 1) n [] ++ acc
      rw [natCharsAux, natCharsAux, if_neg hn, if_neg hn,
        ih (n / 10) (digitChar10 (n % 10) :: acc),
        ih (n / 10) [digitChar10 (n % 10)], List.append_assoc]
      rfl

theorem decValFrom_natCharsAux (fuel : Nat) : ∀ (n : Nat), 0 < n → n ≤ fuel →
    ∀ x, decValFrom x (natCharsAux fuel n []) =
      x * 10 ^ (natCharsAux fuel n []).length + n := by
  induction fuel with
  | zero => intro n h1 h2; omega
  | succ f ih =>
    intro n h1 _ x
    have hne : ¬ n = 0 := by omega
    rw [natCharsAux, if_neg hne, natCharsAux_append f (n / 10)]
    by_cases hq : n / 10 = 0
    · rw [hq, natCharsAux_zero]
      have hmod : n % 10 = n := by omega
      simp only [List.nil_append, decValFrom, List.foldl_cons, List.foldl_nil,
        List.length_cons, List.length_nil]
      rw [digitVal_digitChar10 (n % 10) (by omega), hmod]
      ring
    · have hdiv : n / 10 ≤ f := by omega
      have hrec := ih (n / 10) (by omega) hdiv x
      unfold decValFrom at hrec ⊢
      rw [List.foldl_append]
      rw [hrec]
      simp only [List.foldl_cons, List.foldl_nil, List.length_append,
        List.length_cons, List.length_nil]
      rw [digitVal_digitChar10 (n % 10) (by omega)]
      have hnm := Nat.div_add_mod n 10
      rw [pow_succ]
      ring_nf
      omega

theorem decValFrom_natChars (n : Nat) : decValFrom 0 (natChars n) = n := by
  by_cases hn : n = 0
  · subst hn; rfl
  · unfold natChars
    rw [if_neg hn, decValFrom_natCharsAux n n (by omega) (le_refl n) 0]
    omega

theorem natChars_injective (m n : Nat) (h : natChars m = natChars n) : m = n := by
  have hm := decValFrom_natChars m
  rw [h, decValFrom_natChars] at hm
  omega

theorem natCharsAux_mem (fuel : Nat) : ∀ (n : Nat) (acc : List Char) (c : Char),
    c ∈ natCharsAux fuel n acc → c ∈ acc ∨ ∃ d, c = digitChar10 d := by
  induction fuel with
  | zero => intro n acc c hc; exact Or.inl hc
  | succ f ih =>
    intro n acc c hc
    by_cases hn : n = 0
    · subst hn; rw [natCharsAux_zero] at hc; exact Or.inl hc
    · rw [natCharsAux, if_neg hn] at hc
      rcases ih (n / 10) _ c hc with hacc | hd
      · rcases List.mem_cons.mp hacc with hh | ht
        · exact Or.inr ⟨n % 10, hh⟩
        · exact Or.inl ht
      · exact Or.inr hd

theorem natChars_mem (n : Nat) (c : Char) (hc : c ∈ natChars n) :
    ∃ d, c = digitChar10 d := by
  unfold natChars at hc
  by_cases hn : n = 0
  · rw [if_pos hn] at hc
    rcases List.mem_singleton.mp hc with rfl
    exact ⟨0, rfl⟩
  · rw [if_neg hn] at hc
    rcases natCharsAux_mem n n [] c hc with h | h
    · cases h
    · exact h

theorem brandLabel_inj (i j : Nat) (h : brandLabel i = brandLabel j) : i = j := by
  unfold brandLabel at h
  have h2 := List.append_cancel_left h
  have := natChars_injective (i + 1) (j + 1) h2
  omega

theorem brandLabel_head (i : Nat) :
    brandLabel i = 'B' :: (lit "RAND" ++ natChars (i + 1)) := rfl

theorem brandLabel_no_underscore (i : Nat) : '_' ∉ brandLabel i := by
  intro h
  unfold brandLabel at h
  rcases List.mem_append.mp h with h | h
  · revert h; decide
  · obtain ⟨d, hd⟩ := natChars_mem (i + 1) '_' h
    exact digitChar10_ne_underscore d hd.symm

theorem repKey_no_B (c : Channel) : 'B' ∉ repKey c := by
  cases c <;> decide

theorem marker_split (m : Char) : ∀ (t1 t2 s1 s2 : Str), m ∉ t1 → m ∉ t2 →
    t1 ++ m :: s1 = t2 ++ m :: s2 → t1 = t2 ∧ s1 = s2 := by
  intro t1
  induction t1 with
  | nil =>
    intro t2 s1 s2 _ hm2 he
    cases t2 with
    | nil =>
      simp only [List.nil_append] at he
      exact ⟨rfl, by injection he⟩
    | cons c cs =>
      simp only [List.nil_append, List.cons_append] at he
      injection he with hh _
      exact absurd (hh ▸ List.mem_cons_self c cs) hm2
  | cons a as ih =>
    intro t2 s1 s2 hm1 hm2 he
    cases t2 with
    | nil =>
      simp only [List.nil_append, List.cons_append] at he
      injection he with hh _
      exact absurd (hh ▸ List.mem_cons_self a as) hm1
    | cons c cs =>
      simp only [List.cons_append] at he
      injection he with hh ht
      subst hh
      obtain ⟨hte, hse⟩ := ih cs s1 s2
        (fun h => hm1 (List.mem_cons_of_mem _ h))
        (fun h => hm2 (List.mem_cons_of_mem _ h)) ht
      exact ⟨by rw [hte], hse⟩

theorem pyJoin_head (sep : Str) : ∀ (labs : List Str) (c : Char),
    labs ≠ [] → (∀ l ∈ labs, ∃ t, l = c :: t) →
    ∃ t, pyJoin sep labs = c :: t := by
  intro labs c hne hall
  cases labs with
  | nil => exact absurd rfl hne
  | cons x rest =>
    obtain ⟨t, rfl⟩ := hall x (List.mem_cons_self _ _)
    cases rest with
    | nil => exact ⟨t, rfl⟩
    | cons y rest2 => exact ⟨t ++ sep ++ pyJoin sep (y :: rest2), by simp [pyJoin]⟩

theorem pyJoin_underscore_mem : ∀ (labs : List Str), 2 ≤ labs.length →
    '_' ∈ pyJoin (lit "_AND_") labs := by
  intro labs hlen
  match labs with
  | x :: y :: rest =>
    show '_' ∈ x ++ lit "_AND_" ++ pyJoin (lit "_AND_") (y :: rest)
    refine List.mem_append.mpr (Or.inl ?_)
    refine List.mem_append.mpr (Or.inr ?_)
    decide

theorem pyJoin_inj : ∀ (l1 l2 : List Str),
    (∀ x ∈ l1, x ≠ [] ∧ '_' ∉ x) → (∀ x ∈ l2, x ≠ [] ∧ '_' ∉ x) →
    pyJoin (lit "_AND_") l1 = pyJoin (lit "_AND_") l2 → l1 = l2 := by
  intro l1
  induction l1 with
  | nil =>
    intro l2 _ h2 he
    cases l2 with
    | nil => rfl
    | cons y ys =>
      exfalso
      obtain ⟨hne, _⟩ := h2 y (List.mem_cons_self _ _)
      cases ys with
      | nil => exact hne (by simpa [pyJoin] using he.symm)
      | cons z zs =>
        have : (pyJoin (lit "_AND_") [] : Str) = [] := rfl
        rw [this] at he
        have he2 : (y ++ lit "_AND_" ++ pyJoin (lit "_AND_") (z :: zs) : Str) = [] :=
          he.symm
        simp at he2
        exact hne he2.1
  | cons x xs ih =>
    intro l2 h1 h2 he
    cases l2 with
    | nil =>
      exfalso
      obtain ⟨hne, _⟩ := h1 x (List.mem_cons_self _ _)
      cases xs with
      | nil => exact hne (by simpa [pyJoin] using he)
      | cons z zs =>
        have he2 : (x ++ lit "_AND_" ++ pyJoin (lit "_AND_") (z :: zs) : Str) = [] :=
          he
        simp at he2
        exact hne he2.1
    | cons y ys =>
      obtain ⟨hxne, hxu⟩ := h1 x (List.mem_cons_self _ _)
      obtain ⟨hyne, hyu⟩ := h2 y (List.mem_cons_self _ _)
      cases xs with
      | nil =>
        cases ys with
        | nil => exact by rw [show x = y from he]
        | cons z zs =>
          exfalso
          have he2 : x = y ++ '_' :: (lit "AND_" ++ pyJoin (lit "_AND_") (z :: zs)) := by
            simpa [pyJoin, List.append_assoc] using he
          exact hxu (he2 ▸ List.mem_append.mpr (Or.inr
            (List.mem_cons_self _ _)))
      | cons w ws =>
        cases ys with
        | nil =>
          exfalso
          have he2 : y = x ++ '_' :: (lit "AND_" ++ pyJoin (lit "_AND_") (w :: ws)) := by
            simpa [pyJoin, List.append_assoc] using he.symm
          exact hyu (he2 ▸ List.mem_append.mpr (Or.inr
            (List.mem_cons_self _ _)))
        | cons z zs =>
          have he2 : x ++ '_' :: (lit "AND_" ++ pyJoin (lit "_AND_") (w :: ws)) =
              y ++ '_' :: (lit "AND_" ++ pyJoin (lit "_AND_") (z :: zs)) := by
            simpa [pyJoin, List.append_assoc] using he
          obtain ⟨hxy, hrest⟩ := marker_split '_' x y _ _ hxu hyu he2
          have hj : pyJoin (lit "_AND_") (w :: ws) = pyJoin (lit "_AND_") (z :: zs) :=
            List.append_cancel_left hrest
          have := ih (z :: zs) (fun a ha => h1 a (List.mem_cons_of_mem _ ha))
            (fun a ha => h2 a (List.mem_cons_of_mem _ ha)) hj
          rw [hxy, this]

theorem idxOf_lt_length {α : Type} [DecidableEq α] (l : List α) (b : α)
    (hb : b ∈ l) : idxOf l b < l.length := by
  induction l with
  | nil => cases hb
  | cons x xs ih =>
    show (if x = b then 0 else idxOf xs b + 1) < xs.length + 1
    by_cases hx : x = b
    · rw [if_pos hx]; omega
    · rw [if_neg hx]
      have hbx : b ∈ xs := by
        rcases List.mem_cons.mp hb with h | h
        · exact absurd h.symm hx
        · exact h
      have := ih hbx
      omega

theorem getElem_idxOf {α : Type} [DecidableEq α] (l : List α) (b : α)
    (hb : b ∈ l) (hj : idxOf l b < l.length) : l[idxOf l b] = b := by
  induction l with
  | nil => cases hb
  | cons x xs ih =>
    by_cases hx : x = b
    · subst hx
      have h0 : idxOf (x :: xs) x = 0 := by simp [idxOf]
      simp [h0]
    · have hbx : b ∈ xs := by
        rcases List.mem_cons.mp hb with h | h
        · exact absurd h.symm hx
        · exact h
      have hstep : idxOf (x :: xs) b = idxOf xs b + 1 := by simp [idxOf, hx]
      have hlt : idxOf xs b < xs.length := idxOf_lt_length xs b hbx
      have hg : (x :: xs)[idxOf (x :: xs) b] = xs[idxOf xs b] := by
        simp only [hstep, List.getElem_cons_succ]
      rw [hg]
      exact ih hbx hlt

theorem idxOf_inj {α : Type} [DecidableEq α] (l : List α) (a b : α)
    (ha : a ∈ l) (hb : b ∈ l) (h : idxOf l a = idxOf l b) : a = b := by
  have hga := getElem_idxOf l a ha (idxOf_lt_length l a ha)
  have hgb := getElem_idxOf l b hb (idxOf_lt_length l b hb)
  rw [← hga, ← hgb]
  congr 1

theorem bm_get_of_mem (brands : List Str) (hnd : brands.Nodup) (b : Str)
    (hb : b ∈ brands) :
    pyDictGet (brandMapPairs brands) b = some (brandLabel (idxOf brands b)) := by
  have hj := idxOf_lt_length brands b hb
  have hbe : brands[idxOf brands b] = b := getElem_idxOf brands b hb hj
  have := brandMapAux_get_of_getElem 0 brands [] hnd (idxOf brands b) hj
  rw [hbe] at this
  simpa using this

theorem filterMap_eq_map_of_mem {α β : Type} (l : List α) (F : α → Option β)
    (g : α → β) (h : ∀ x ∈ l, F x = some (g x)) : l.filterMap F = l.map g := by
  induction l with
  | nil => rfl
  | cons x xs ih =>
    rw [List.filterMap_cons, h x (List.mem_cons_self _ _), List.map_cons,
      ih (fun a ha => h a (List.mem_cons_of_mem _ ha))]

theorem mapM_eq_map_of_mem (l : List Str) (F : Str → Option Str) (g : Str → Str)
    (h : ∀ x ∈ l, F x = some (g x)) : l.mapM F = some (l.map g) := by
  induction l with
  | nil => rfl
  | cons x xs ih =>
    rw [List.mapM_cons, h x (List.mem_cons_self _ _),
      ih (fun a ha => h a (List.mem_cons_of_mem _ ha))]
    rfl

theorem map_inj_of_mem {α β : Type} (g : α → β) (dom : List α)
    (hg : ∀ a ∈ dom, ∀ b ∈ dom, g a = g b → a = b) :
    ∀ (c1 c2 : List α), (∀ a ∈ c1, a ∈ dom) → (∀ a ∈ c2, a ∈ dom) →
    c1.map g = c2.map g → c1 = c2 := by
  intro c1
  induction c1 with
  | nil =>
    intro c2 _ _ he
    cases c2 with
    | nil => rfl
    | cons y ys => simp at he
  | cons x xs ih =>
    intro c2 h1 h2 he
    cases c2 with
    | nil => simp at he
    | cons y ys =>
      simp only [List.map_cons, List.cons.injEq] at he
      have hxy : x = y := hg x (h1 x (List.mem_cons_self _ _)) y
        (h2 y (List.mem_cons_self _ _)) he.1
      rw [hxy, ih ys (fun a ha => h1 a (List.mem_cons_of_mem _ ha))
        (fun a ha => h2 a (List.mem_cons_of_mem _ ha)) he.2]

theorem lexIdxB_irrefl {α : Type} [DecidableEq α] (l : List α) :
    ∀ c, lexIdxB l c c = false := by
  intro c
  induction c with
  | nil => rfl
  | cons a as ih => simp [lexIdxB, ih]

theorem getCombinations_nodup (brands : List Str) (hnd : brands.Nodup) :
    (getCombinations brands).Nodup := by
  have hp := getCombinations_pairwise_ordered brands hnd
  show (getCombinations brands).Pairwise _
  refine hp.imp_of_mem ?_
  intro c1 c2 _ _ hr heq
  subst heq
  rcases hr with h | h
  · exact absurd h (lt_irrefl _)
  · rw [lexIdxB_irrefl] at h
    cases h

theorem channelInteractions_eq (mb : List Channel) (brands : List Str)
    (c : Channel) (hnd : brands.Nodup) :
    channelInteractions mb brands (brandMapPairs brands) c =
      brands.map (fun b => repKey c ++ '_' :: brandLabel (idxOf brands b)) ++
      (if mb.any (fun mc => decide (strLower c.str = strLower mc.str)) then
        (getCombinations brands).map (fun combo =>
          repKey c ++ '_' :: pyJoin (lit "_AND_")
            (combo.map (fun b => brandLabel (idxOf brands b))))
      else []) := by
  unfold channelInteractions
  simp only []
  congr 1
  · refine filterMap_eq_map_of_mem _ _ _ ?_
    intro b hb
    rw [bm_get_of_mem brands hnd b hb]
    rfl
  · by_cases he : mb.any (fun mc => decide (strLower c.str = strLower mc.str))
    · rw [if_pos he, if_pos he]
      refine filterMap_eq_map_of_mem _ _ _ ?_
      intro combo hcombo
      rw [mapM_eq_map_of_mem combo _ (fun b => brandLabel (idxOf brands b))
        (fun b hb => bm_get_of_mem brands hnd b
          ((getCombinations_mem brands combo hcombo).2.mem hb))]
      rfl
    · rw [if_neg he, if_neg he]

theorem label_map_props (brands : List Str) (combo : List Str)
    (_hsub : ∀ a ∈ combo, a ∈ brands) :
    ∀ x ∈ combo.map (fun b => brandLabel (idxOf brands b)), x ≠ [] ∧ '_' ∉ x := by
  intro x hx
  obtain ⟨b, _, rfl⟩ := List.mem_map.mp hx
  exact ⟨by rw [brandLabel_head]; exact List.cons_ne_nil _ _,
    brandLabel_no_underscore _⟩

theorem channelInteractions_nodup (mb : List Channel) (brands : List Str)
    (c : Channel) (hnd : brands.Nodup) :
    (channelInteractions mb brands (brandMapPairs brands) c).Nodup := by
  rw [channelInteractions_eq mb brands c hnd]
  have hinj : ∀ a ∈ brands, ∀ b ∈ brands,
      repKey c ++ '_' :: brandLabel (idxOf brands a) =
        repKey c ++ '_' :: brandLabel (idxOf brands b) → a = b := by
    intro a ha b hb he
    have h1 := List.append_cancel_left he
    injection h1 with _ h2
    exact idxOf_inj brands a b ha hb (brandLabel_inj _ _ h2)
  refine List.Nodup.append (hnd.map_on hinj) ?_ ?_
  · by_cases he : mb.any (fun mc => decide (strLower c.str = strLower mc.str))
    · rw [if_pos he]
      refine (getCombinations_nodup brands hnd).map_on ?_
      intro c1 h1 c2 h2 he2
      have h3 := List.append_cancel_left he2
      injection h3 with _ h4
      have h5 := pyJoin_inj _ _
        (label_map_props brands c1 (fun a ha => (getCombinations_mem brands c1 h1).2.mem ha))
        (label_map_props brands c2 (fun a ha => (getCombinations_mem brands c2 h2).2.mem ha))
        h4
      exact map_inj_of_mem _ brands
        (fun a ha b hb hab => idxOf_inj brands a b ha hb (brandLabel_inj _ _ hab))
        c1 c2 (fun a ha => (getCombinations_mem brands c1 h1).2.mem ha)
        (fun a ha => (getCombinations_mem brands c2 h2).2.mem ha) h5
    · rw [if_neg he]; exact List.nodup_nil
  · intro k hk1 hk2
    obtain ⟨b, _, rfl⟩ := List.mem_map.mp hk1
    by_cases he : mb.any (fun mc => decide (strLower c.str = strLower mc.str))
    · rw [if_pos he] at hk2
      obtain ⟨combo, hcombo, hkey⟩ := List.mem_map.mp hk2
      have h1 := List.append_cancel_left hkey
      injection h1 with _ h2
      have hlen2 : 2 ≤ (combo.map (fun b => brandLabel (idxOf brands b))).length := by
        rw [List.length_map]
        exact (getCombinations_mem brands combo hcombo).1
      have hu : '_' ∈ pyJoin (lit "_AND_")
          (combo.map (fun b => brandLabel (idxOf brands b))) :=
        pyJoin_underscore_mem _ hlen2
      rw [h2] at hu
      exact brandLabel_no_underscore _ hu
    · rw [if_neg he] at hk2
      cases hk2

theorem channelInteractions_shape (mb : List Channel) (brands : List Str)
    (c : Channel) (k : Str) (hnd : brands.Nodup)
    (hk : k ∈ channelInteractions mb brands (brandMapPairs brands) c) :
    ∃ s, k = (repKey c ++ ['_']) ++ 'B' :: s := by
  rw [channelInteractions_eq mb brands c hnd] at hk
  rcases List.mem_append.mp hk with h | h
  · obtain ⟨b, _, rfl⟩ := List.mem_map.mp h
    refine ⟨lit "RAND" ++ natChars (idxOf brands b + 1), ?_⟩
    rw [brandLabel_head]
    simp [List.append_assoc]
  · by_cases he : mb.any (fun mc => decide (strLower c.str = strLower mc.str))
    · rw [if_pos he] at h
      obtain ⟨combo, hcombo, rfl⟩ := List.mem_map.mp h
      have hne : combo.map (fun b => brandLabel (idxOf brands b)) ≠ [] := by
        have := (getCombinations_mem brands combo hcombo).1
        intro hnil
        rw [← List.length_map combo (fun b => brandLabel (idxOf brands b)), hnil] at this
        simp at this
      obtain ⟨t, ht⟩ := pyJoin_head (lit "_AND_") _ 'B' hne
        (fun l hl => by
          obtain ⟨b, _, rfl⟩ := List.mem_map.mp hl
          exact ⟨_, brandLabel_head _⟩)
      refine ⟨t, ?_⟩
      rw [ht]
      simp [List.append_assoc]
    · rw [if_neg he] at h
      cases h

theorem repKey_marker_free (c : Channel) : 'B' ∉ repKey c ++ ['_'] := by
  intro h
  rcases List.mem_append.mp h with h | h
  · exact repKey_no_B c h
  · revert h; decide

/-- CLAIM C1 counterexample.  Selecting both `RTE-Open` and `RTE-Sent` with a
single brand produces the interaction key `REP_TRIGGERED_EMAIL_BRAND1` twice:
the channel map sends `RTE-OPEN` to `TRIGGERED_EMAIL` and `RTE-SENT` to
`TRIGGERED EMAIL`, and the space is rewritten to an underscore by the
`.replace(" ", "_")` step, so the two channels collide on the same composite
key and the produced sequence is not duplicate-free. -/
theorem interaction_keys_duplicate_counterexample :
    (buildInteractionChannels [.rteOpen, .rteSent] [] [lit "A"]).1 =
      [lit "REP_TRIGGERED_EMAIL_BRAND1", lit "REP_TRIGGERED_EMAIL_BRAND1"] ∧
    ¬ (buildInteractionChannels [.rteOpen, .rteSent] [] [lit "A"]).1.Nodup :=
  ⟨by decide, by decide⟩

/-- CLAIM C1 (amended).  For every bundle whose brand list is duplicate-free
and whose selected channels have pairwise distinct mapped bare keys
`REP_<token>` (which excludes exactly the `RTE-Open`/`RTE-Sent` collision),
the interaction-key sequence produced by the Interaction Channel Builder
contains no duplicate keys, for every multibrand-eligibility list. -/
theorem interaction_keys_nodup (channels multibrandChannels : List Channel)
    (brands : List Str) (hnd : brands.Nodup)
    (hkeys : (channels.map repKey).Nodup) :
    (buildInteractionChannels channels multibrandChannels brands).1.Nodup := by
  have h1 : (buildInteractionChannels channels multibrandChannels brands).1 =
      channels.flatMap
        (channelInteractions multibrandChannels brands (brandMapPairs brands)) := rfl
  rw [h1, List.nodup_flatMap]
  constructor
  · intro c _
    exact channelInteractions_nodup multibrandChannels brands c hnd
  · have hp : channels.Pairwise (fun c1 c2 => repKey c1 ≠ repKey c2) :=
      List.pairwise_map.mp hkeys
    refine hp.imp_of_mem ?_
    intro c1 c2 _ _ hne k hk1 hk2
    obtain ⟨s1, he1⟩ := channelInteractions_shape multibrandChannels brands c1 k hnd hk1
    obtain ⟨s2, he2⟩ := channelInteractions_shape multibrandChannels brands c2 k hnd hk2
    rw [he1] at he2
    obtain ⟨ht, _⟩ := marker_split 'B' _ _ _ _ (repKey_marker_free c1)
      (repKey_marker_free c2) he2
    exact hne (List.append_cancel_right ht)

/-- Witness for `interaction_keys_nodup` at channels `[F2F, RTE-Open]` (F2F
multibrand-eligible) and brands `["A", "B", "C"]`. -/
theorem interaction_keys_nodup_witness :
    ([lit "A", lit "B", lit "C"] : List Str).Nodup ∧
    (([Channel.f2f, Channel.rteOpen] : List Channel).map repKey).Nodup ∧
    (buildInteractionChannels [Channel.f2f, Channel.rteOpen] [Channel.f2f]
      [lit "A", lit "B", lit "C"]).1.Nodup :=
  ⟨by decide, by decide,
    interaction_keys_nodup [Channel.f2f, Channel.rteOpen] [Channel.f2f]
      [lit "A", lit "B", lit "C"] (by decide) (by decide)⟩

theorem gmatch_path_ne_nil {p pos : List Str} (h : GMatch p pos) : p ≠ [] := by
  induction h with
  | exact k => exact List.cons_ne_nil _ _
  | consume h _ _ => exact List.cons_ne_nil _ _
  | gap k _ ih => exact ih

theorem gmatch_pos_ne_nil {p pos : List Str} (h : GMatch p pos) : pos ≠ [] := by
  cases h with
  | exact k => exact List.cons_ne_nil _ _
  | consume h _ => exact List.cons_ne_nil _ _
  | gap k _ => exact List.cons_ne_nil _ _

theorem gmatch_self : ∀ (p : List Str), p ≠ [] → GMatch p p := by
  intro p hp
  match p with
  | [k] => exact .exact k
  | k :: k2 :: rest => exact .consume k (gmatch_self (k2 :: rest) (List.cons_ne_nil _ _))

theorem gmatch_prepend : ∀ (q : List Str) {p pos : List Str},
    GMatch p pos → GMatch p (q ++ pos) := by
  intro q
  induction q with
  | nil => intro p pos h; exact h
  | cons k rest ih => intro p pos h; exact .gap k (ih h)

theorem propagateCfg_zero (norm : Str → Str) (c : Cfg) (path : List Str) (v : Cfg) :
    propagateCfg norm 0 c path v = c := rfl

theorem propagateCfg_succ_node (norm : Str → Str) (f : Nat) (kvs : Fields)
    (h : Str) (t : List Str) (v : Cfg) :
    propagateCfg norm (f + 1) (.node kvs) (h :: t) v =
      .node (propFieldsWith norm (propagateCfg norm f) h t v kvs) := rfl

theorem propagateCfg_succ_leaf (norm : Str → Str) (f : Nat) (w : CLeaf)
    (path : List Str) (v : Cfg) :
    propagateCfg norm (f + 1) (.leaf w) path v = .leaf w := by
  cases path <;> rfl

theorem propagateCfg_succ_seq (norm : Str → Str) (f : Nat) (xs : Elems)
    (path : List Str) (v : Cfg) :
    propagateCfg norm (f + 1) (.seq xs) path v = .seq xs := by
  cases path <;> rfl

theorem propagateCfg_nilpath (norm : Str → Str) (f : Nat) (c : Cfg) (v : Cfg) :
    propagateCfg norm f c [] v = c := by
  cases f with
  | zero => rfl
  | succ f2 => cases c <;> rfl

theorem propagateCfg_leaf (norm : Str → Str) (f : Nat) (w : CLeaf)
    (path : List Str) (v : Cfg) :
    propagateCfg norm f (.leaf w) path v = .leaf w := by
  cases f with
  | zero => rfl
  | succ f2 => exact propagateCfg_succ_leaf norm f2 w path v

theorem propagateCfg_seq (norm : Str → Str) (f : Nat) (xs : Elems)
    (path : List Str) (v : Cfg) :
    propagateCfg norm f (.seq xs) path v = .seq xs := by
  cases f with
  | zero => rfl
  | succ f2 => exact propagateCfg_succ_seq norm f2 xs path v

theorem allB_zero_leaf (pred : Str → Cfg → Bool) (w : CLeaf) :
    allDictFieldsB pred 0 (.leaf w) = true := rfl

theorem allB_leaf (pred : Str → Cfg → Bool) (f : Nat) (w : CLeaf) :
    allDictFieldsB pred f (.leaf w) = true := by
  cases f <;> rfl

theorem allB_succ_node (pred : Str → Cfg → Bool) (f : Nat) (kvs : Fields) :
    allDictFieldsB pred (f + 1) (.node kvs) =
      allFieldsPredWith (allDictFieldsB pred f) pred kvs := rfl

theorem allB_succ_seq (pred : Str → Cfg → Bool) (f : Nat) (xs : Elems) :
    allDictFieldsB pred (f + 1) (.seq xs) =
      allElemsPredWith (allDictFieldsB pred f) xs := rfl

theorem allB_zero_node (pred : Str → Cfg → Bool) (kvs : Fields) :
    allDictFieldsB pred 0 (.node kvs) = false := rfl

theorem allB_zero_seq (pred : Str → Cfg → Bool) (xs : Elems) :
    allDictFieldsB pred 0 (.seq xs) = false := rfl

theorem allFieldsPred_imp (chk1 chk2 : Cfg → Bool) (pred : Str → Cfg → Bool)
    (h : ∀ v, chk1 v = true → chk2 v = true) : ∀ (kvs : Fields),
    allFieldsPredWith chk1 pred kvs = true →
    allFieldsPredWith chk2 pred kvs = true
  | .nil, _ => rfl
  | .cons k v rest, hk => by
    simp only [allFieldsPredWith, Bool.and_eq_true] at hk ⊢
    exact ⟨⟨hk.1.1, h v hk.1.2⟩, allFieldsPred_imp chk1 chk2 pred h rest hk.2⟩

theorem allElemsPred_imp (chk1 chk2 : Cfg → Bool)
    (h : ∀ v, chk1 v = true → chk2 v = true) : ∀ (xs : Elems),
    allElemsPredWith chk1 xs = true → allElemsPredWith chk2 xs = true
  | .nil, _ => rfl
  | .cons x rest, hk => by
    simp only [allElemsPredWith, Bool.and_eq_true] at hk ⊢
    exact ⟨h x hk.1, allElemsPred_imp chk1 chk2 h rest hk.2⟩

theorem allB_mono (pred : Str → Cfg → Bool) : ∀ (f g : Nat) (c : Cfg), f ≤ g →
    allDictFieldsB pred f c = true → allDictFieldsB pred g c = true := by
  intro f
  induction f with
  | zero =>
    intro g c _ hc
    cases c with
    | leaf w => exact allB_leaf pred g w
    | node kvs => rw [allB_zero_node] at hc; cases hc
    | seq xs => rw [allB_zero_seq] at hc; cases hc
  | succ f2 ih =>
    intro g c hle hc
    match g with
    | 0 => omega
    | g2 + 1 =>
      cases c with
      | leaf w => exact allB_leaf pred _ w
      | node kvs =>
        rw [allB_succ_node] at hc ⊢
        exact allFieldsPred_imp _ _ _ (fun v => ih g2 v (by omega)) kvs hc
      | seq xs =>
        rw [allB_succ_seq] at hc ⊢
        exact allElemsPred_imp _ _ (fun v => ih g2 v (by omega)) xs hc

theorem fget_fmap (F : Str → Cfg → Cfg) : ∀ (kvs : Fields) (key : Str),
    fget (fmapFields F kvs) key = (fget kvs key).map (F key)
  | .nil, _ => rfl
  | .cons k v rest, key => by
    show (if k = key then some (F k v) else fget (fmapFields F rest) key) = _
    by_cases hk : k = key
    · subst hk; simp [fget]
    · simp [fget, hk, fget_fmap F rest key]

theorem propFields_eq_fmap (rec2 : Cfg → List Str → Cfg → Cfg) (head : Str)
    (tail : List Str) (v : Cfg) : ∀ (kvs : Fields),
    propFieldsWith (fun k => k) rec2 head tail v kvs =
      fmapFields (propValue rec2 head tail v) kvs
  | .nil => rfl
  | .cons k val rest => by
    have ih := propFields_eq_fmap rec2 head tail v rest
    show (if k = head ∧ tail = [] then
        Fields.cons k v (propFieldsWith (fun k => k) rec2 head tail v rest)
      else _) = Fields.cons k (propValue rec2 head tail v k val)
        (fmapFields (propValue rec2 head tail v) rest)
    by_cases hc : k = head ∧ tail = []
    · rw [if_pos hc, ih]
      unfold propValue
      rw [if_pos hc]
    · rw [if_neg hc, ih]
      unfold propValue
      rw [if_neg hc]

theorem valueAt_node (kvs : Fields) (k : Str) (rest : List Str) :
    valueAt (.node kvs) (k :: rest) =
      (match fget kvs k with
       | some v => valueAt v rest
       | none => none) := rfl

theorem valueAt_nil (c : Cfg) : valueAt c [] = some c := rfl

theorem getLast_cons_ne_nil (h : Str) (t : List Str) (hne : t ≠ []) :
    (h :: t).getLast? = t.getLast? := by
  cases t with
  | nil => exact absurd rfl hne
  | cons a b => exact List.getLast?_cons_cons

theorem ffindKey_id_getD (kn : Str) : ∀ (bf : Fields),
    (ffindKey (fun k => k) bf kn).getD kn = kn
  | .nil => rfl
  | .cons k v rest => by
    show (if k = kn then some k else ffindKey (fun k => k) rest kn).getD kn = kn
    by_cases hk : k = kn
    · rw [if_pos hk]; exact hk
    · rw [if_neg hk]; exact ffindKey_id_getD kn rest

theorem fget_fset (k : Str) (w : Cfg) : ∀ (kvs : Fields) (key : Str),
    fget (fset kvs k w) key = if key = k then some w else fget kvs key
  | .nil, key => by
    show (if k = key then some w else none) = _
    by_cases hk : key = k
    · subst hk; rw [if_pos rfl, if_pos rfl]
    · rw [if_neg (fun h : k = key => hk h.symm), if_neg hk]; rfl
  | .cons k2 v rest, key => by
    show fget (if k2 = k then .cons k2 w rest else .cons k2 v (fset rest k w)) key = _
    by_cases h2 : k2 = k
    · subst h2
      rw [if_pos rfl]
      show (if k2 = key then some w else fget rest key) = _
      by_cases hk : key = k2
      · subst hk
        rw [if_pos rfl, if_pos rfl]
      · rw [if_neg (fun h : k2 = key => hk h.symm), if_neg hk]
        show fget rest key = (if k2 = key then some v else fget rest key)
        rw [if_neg (fun h : k2 = key => hk h.symm)]
    · rw [if_neg h2]
      show (if k2 = key then some v else fget (fset rest k w) key) = _
      by_cases hk : k2 = key
      · rw [if_pos hk]
        have hne : ¬ key = k := fun h => h2 (hk.trans h)
        rw [if_neg hne]
        show some v = (if k2 = key then some v else fget rest key)
        rw [if_pos hk]
      · rw [if_neg hk, fget_fset k w rest key]
        by_cases hkk : key = k
        · rw [if_pos hkk, if_pos hkk]
        · rw [if_neg hkk, if_neg hkk]
          show fget rest key = (if k2 = key then some v else fget rest key)
          rw [if_neg hk]

theorem chainCfg_cons (k : Str) (rest : List Str) (v : CLeaf) :
    chainCfg (k :: rest) (.leaf v) = .node (chainFieldsOf (k :: rest) v) := rfl

theorem chain_keyLeaf (last : Str) (v : CLeaf) : ∀ (q : List Str),
    last ∉ q.dropLast → (q ≠ [] → q.getLast? = some last) →
    keyLeafOnlyB last q.length (chainCfg q (.leaf v)) = true := by
  intro q
  induction q with
  | nil => intro _ _; exact allB_leaf _ 0 v
  | cons k rest ih =>
    intro hnotin hlast
    show allDictFieldsB _ (rest.length + 1) (.node (.cons k (chainCfg rest (.leaf v)) .nil)) = true
    rw [allB_succ_node]
    simp only [allFieldsPredWith, Bool.and_eq_true]
    refine ⟨⟨?_, ?_⟩, trivial⟩
    · cases rest with
      | nil =>
        show (!(decide (k = last)) || isLeafB (.leaf v)) = true
        simp [isLeafB]
      | cons r rs =>
        have hk : k ≠ last := by
          intro he
          refine hnotin ?_
          rw [he]
          show last ∈ (last :: r :: rs).dropLast
          rw [List.dropLast_cons_of_ne_nil (List.cons_ne_nil r rs)]
          exact List.mem_cons_self _ _
        show (!(decide (k = last)) || isLeafB (chainCfg (r :: rs) (.leaf v))) = true
        simp [hk]
    · refine ih ?_ ?_
      · intro hmem
        refine hnotin ?_
        cases rest with
        | nil => simp at hmem
        | cons r rs =>
          rw [List.dropLast_cons_of_ne_nil (List.cons_ne_nil r rs)]
          exact List.mem_cons_of_mem _ hmem
      · intro hne
        have := hlast (List.cons_ne_nil _ _)
        rwa [getLast_cons_ne_nil k rest hne] at this

theorem chain_leaves (v : CLeaf) : ∀ (q : List Str) (pre : List Str), q ≠ [] →
    fieldsLeaves (fun k => k) pre (chainFieldsOf q v) = [(pre ++ q, Cfg.leaf v)] := by
  intro q
  induction q with
  | nil => intro pre h; exact absurd rfl h
  | cons k rest ih =>
    intro pre _
    cases rest with
    | nil =>
      show (match (Cfg.leaf v) with
        | .node kvs => fieldsLeaves (fun k => k) (pre ++ [k]) kvs
        | other => [(pre ++ [k], other)]) ++ fieldsLeaves (fun k => k) pre .nil =
        [(pre ++ [k], Cfg.leaf v)]
      rfl
    | cons r rs =>
      show (match chainCfg (r :: rs) (.leaf v) with
        | .node kvs => fieldsLeaves (fun k => k) (pre ++ [k]) kvs
        | other => [(pre ++ [k], other)]) ++ fieldsLeaves (fun k => k) pre .nil =
        [(pre ++ (k :: r :: rs), Cfg.leaf v)]
      rw [chainCfg_cons]
      show fieldsLeaves (fun k => k) (pre ++ [k]) (chainFieldsOf (r :: rs) v) ++ [] =
        [(pre ++ (k :: r :: rs), Cfg.leaf v)]
      rw [ih (pre ++ [k]) (List.cons_ne_nil _ _), List.append_nil,
        List.append_assoc]
      rfl

theorem kl_leaf (last : Str) (f : Nat) (w : CLeaf) :
    keyLeafOnlyB last f (.leaf w) = true := allB_leaf _ f w

theorem kl_zero_node (last : Str) (kvs : Fields) :
    keyLeafOnlyB last 0 (.node kvs) = false := rfl

theorem kl_zero_seq (last : Str) (xs : Elems) :
    keyLeafOnlyB last 0 (.seq xs) = false := rfl

theorem kl_succ_node (last : Str) (f : Nat) (kvs : Fields) :
    keyLeafOnlyB last (f + 1) (.node kvs) =
      allFieldsPredWith (keyLeafOnlyB last f)
        (fun k2 w => !(decide (k2 = last)) || isLeafB w) kvs := rfl

theorem kl_succ_seq (last : Str) (f : Nat) (xs : Elems) :
    keyLeafOnlyB last (f + 1) (.seq xs) =
      allElemsPredWith (keyLeafOnlyB last f) xs := rfl

theorem kl_mono (last : Str) (f g : Nat) (c : Cfg) (hle : f ≤ g)
    (hc : keyLeafOnlyB last f c = true) : keyLeafOnlyB last g c = true :=
  allB_mono _ f g c hle hc

theorem valueAt_leaf_cons (w : CLeaf) (k : Str) (rest : List Str) :
    valueAt (.leaf w) (k :: rest) = none := rfl

theorem valueAt_seq_cons (xs : Elems) (k : Str) (rest : List Str) :
    valueAt (.seq xs) (k :: rest) = none := rfl

theorem propValue_end (rec2 : Cfg → List Str → Cfg → Cfg) (h : Str)
    (t : List Str) (v : Cfg) (k : Str) (val : Cfg) (hc : k = h ∧ t = []) :
    propValue rec2 h t v k val = v := by
  unfold propValue
  rw [if_pos hc]

theorem propValue_mid_leaf (rec2 : Cfg → List Str → Cfg → Cfg) (h : Str)
    (t : List Str) (v : Cfg) (k : Str) (val : Cfg) (w1 : CLeaf)
    (hc : ¬(k = h ∧ t = []))
    (hveq : (if k = h then rec2 val t v else val) = .leaf w1) :
    propValue rec2 h t v k val = .leaf w1 := by
  unfold propValue
  rw [if_neg hc]
  show (match (if k = h then rec2 val t v else val) with
    | .node _ => rec2 (if k = h then rec2 val t v else val) (h :: t) v
    | .seq xs => Cfg.seq (propElemsWith rec2 (h :: t) v xs)
    | other => other) = .leaf w1
  rw [hveq]

theorem propValue_mid_node (rec2 : Cfg → List Str → Cfg → Cfg) (h : Str)
    (t : List Str) (v : Cfg) (k : Str) (val : Cfg) (kvs1 : Fields)
    (hc : ¬(k = h ∧ t = []))
    (hveq : (if k = h then rec2 val t v else val) = .node kvs1) :
    propValue rec2 h t v k val = rec2 (.node kvs1) (h :: t) v := by
  unfold propValue
  rw [if_neg hc]
  show (match (if k = h then rec2 val t v else val) with
    | .node _ => rec2 (if k = h then rec2 val t v else val) (h :: t) v
    | .seq xs => Cfg.seq (propElemsWith rec2 (h :: t) v xs)
    | other => other) = rec2 (.node kvs1) (h :: t) v
  rw [hveq]

theorem propValue_mid_seq (rec2 : Cfg → List Str → Cfg → Cfg) (h : Str)
    (t : List Str) (v : Cfg) (k : Str) (val : Cfg) (xs1 : Elems)
    (hc : ¬(k = h ∧ t = []))
    (hveq : (if k = h then rec2 val t v else val) = .seq xs1) :
    propValue rec2 h t v k val = .seq (propElemsWith rec2 (h :: t) v xs1) := by
  unfold propValue
  rw [if_neg hc]
  show (match (if k = h then rec2 val t v else val) with
    | .node _ => rec2 (if k = h then rec2 val t v else val) (h :: t) v
    | .seq xs => Cfg.seq (propElemsWith rec2 (h :: t) v xs)
    | other => other) = .seq (propElemsWith rec2 (h :: t) v xs1)
  rw [hveq]

theorem fields_get_pred (chk : Cfg → Bool) (pred : Str → Cfg → Bool) :
    ∀ (kvs : Fields) (key : Str) (val : Cfg),
    allFieldsPredWith chk pred kvs = true → fget kvs key = some val →
    pred key val = true ∧ chk val = true
  | .nil, key, val, _, hg => by cases hg
  | .cons k v rest, key, val, hall, hg => by
    simp only [allFieldsPredWith, Bool.and_eq_true] at hall
    by_cases hk : k = key
    · subst hk
      have : some v = some val := by
        rw [← hg]
        show some v = if k = k then some v else fget rest k
        rw [if_pos rfl]
      injection this with hv
      subst hv
      exact ⟨hall.1.1, hall.1.2⟩
    · have hg2 : fget rest key = some val := by
        rw [← hg]
        show fget rest key = if k = key then some v else fget rest key
        rw [if_neg hk]
      exact fields_get_pred chk pred rest key val hall.2 hg2

theorem allFieldsPred_map2 (chkM chk : Cfg → Bool) (pred : Str → Cfg → Bool)
    (F : Str → Cfg → Cfg)
    (h : ∀ k val, pred k val = true → chkM val = true → chk val = true →
      pred k (F k val) = true ∧ chk (F k val) = true) :
    ∀ (kvs : Fields), allFieldsPredWith chkM pred kvs = true →
    allFieldsPredWith chk pred kvs = true →
    allFieldsPredWith chk pred (fmapFields F kvs) = true
  | .nil, _, _ => rfl
  | .cons k v rest, hM, hc => by
    simp only [allFieldsPredWith, Bool.and_eq_true] at hM hc
    simp only [fmapFields, allFieldsPredWith, Bool.and_eq_true]
    obtain ⟨hp, hck⟩ := h k v hM.1.1 hM.1.2 hc.1.2
    exact ⟨⟨hp, hck⟩, allFieldsPred_map2 chkM chk pred F h rest hM.2 hc.2⟩

theorem allElems_prop2 (chkM chk : Cfg → Bool)
    (rec2 : Cfg → List Str → Cfg → Cfg) (path : List Str) (v : Cfg)
    (h : ∀ e, chkM e = true → chk e = true → chk (rec2 e path v) = true) :
    ∀ (xs : Elems), allElemsPredWith chkM xs = true →
    allElemsPredWith chk xs = true →
    allElemsPredWith chk (propElemsWith rec2 path v xs) = true
  | .nil, _, _ => rfl
  | .cons x rest, hM, hc => by
    simp only [allElemsPredWith, Bool.and_eq_true] at hM hc
    simp only [propElemsWith, allElemsPredWith, Bool.and_eq_true]
    refine ⟨?_, allElems_prop2 chkM chk rec2 path v h rest hM.2 hc.2⟩
    cases x with
    | leaf w => exact hc.1
    | node kvs => exact h (.node kvs) hM.1 hc.1
    | seq xs2 => exact hc.1

theorem prop_main : ∀ (fuel : Nat) (path : List Str) (last : Str),
    path ≠ [] → path.getLast? = some last →
    ∀ (c : Cfg) (v : CLeaf), keyLeafOnlyB last fuel c = true →
    (∀ g, keyLeafOnlyB last g c = true →
      keyLeafOnlyB last g (propagateCfg (fun k => k) fuel c path (.leaf v)) = true) ∧
    (∀ pos, (valueAt (propagateCfg (fun k => k) fuel c path (.leaf v)) pos).isSome =
      (valueAt c pos).isSome) ∧
    (∀ pos, GMatch path pos → (valueAt c pos).isSome = true →
      valueAt (propagateCfg (fun k => k) fuel c path (.leaf v)) pos = some (.leaf v)) ∧
    (∀ pos w2, valueAt c pos = some (.leaf w2) → ¬ GMatch path pos →
      valueAt (propagateCfg (fun k => k) fuel c path (.leaf v)) pos = some (.leaf w2)) := by
  intro fuel
  induction fuel with
  | zero =>
    intro path last hne hlast c v hinv
    refine ⟨fun g hg => ?_, fun pos => ?_, fun pos hm hex => ?_,
      fun pos w2 hval hnm => ?_⟩
    · rwa [propagateCfg_zero]
    · rw [propagateCfg_zero]
    · exfalso
      cases c with
      | leaf w =>
        cases pos with
        | nil => exact absurd rfl (gmatch_pos_ne_nil hm)
        | cons a b => rw [valueAt_leaf_cons] at hex; simp at hex
      | node kvs => rw [kl_zero_node] at hinv; cases hinv
      | seq xs => rw [kl_zero_seq] at hinv; cases hinv
    · rw [propagateCfg_zero]; exact hval
  | succ f ih =>
    intro path last hne hlast c v hinv
    cases path with
    | nil => exact absurd rfl hne
    | cons h t =>
    cases c with
    | leaf w =>
      refine ⟨fun g hg => ?_, fun pos => ?_, fun pos hm hex => ?_,
        fun pos w2 hval hnm => ?_⟩
      · rwa [propagateCfg_leaf]
      · rw [propagateCfg_leaf]
      · exfalso
        cases pos with
        | nil => exact absurd rfl (gmatch_pos_ne_nil hm)
        | cons a b => rw [valueAt_leaf_cons] at hex; simp at hex
      · rw [propagateCfg_leaf]; exact hval
    | seq xs =>
      refine ⟨fun g hg => ?_, fun pos => ?_, fun pos hm hex => ?_,
        fun pos w2 hval hnm => ?_⟩
      · rwa [propagateCfg_seq]
      · rw [propagateCfg_seq]
      · exfalso
        cases pos with
        | nil => exact absurd rfl (gmatch_pos_ne_nil hm)
        | cons a b => rw [valueAt_seq_cons] at hex; simp at hex
      · rw [propagateCfg_seq]; exact hval
    | node kvs =>
      rw [propagateCfg_succ_node, propFields_eq_fmap]
      have hKF : ∀ (k : Str) (val : Cfg),
          (!(decide (k = last)) || isLeafB val) = true →
          keyLeafOnlyB last f val = true →
          ((!(decide (k = last)) ||
            isLeafB (propValue (propagateCfg (fun k => k) f) h t (.leaf v) k val)) = true ∧
           (∀ g, keyLeafOnlyB last g val = true →
             keyLeafOnlyB last g
               (propValue (propagateCfg (fun k => k) f) h t (.leaf v) k val) = true) ∧
           (∀ pos, (valueAt (propValue (propagateCfg (fun k => k) f) h t (.leaf v) k val)
               pos).isSome = (valueAt val pos).isSome) ∧
           (∀ pos, GMatch (h :: t) (k :: pos) → (valueAt val pos).isSome = true →
             valueAt (propValue (propagateCfg (fun k => k) f) h t (.leaf v) k val) pos =
               some (.leaf v)) ∧
           (∀ pos w2, valueAt val pos = some (.leaf w2) → ¬ GMatch (h :: t) (k :: pos) →
             valueAt (propValue (propagateCfg (fun k => k) f) h t (.leaf v) k val) pos =
               some (.leaf w2))) := by
        intro k val hpred hkf
        by_cases hcond : k = h ∧ t = []
        · obtain ⟨hkh, ht0⟩ := hcond
          subst ht0
          have hlasth : h = last := by
            have hh : ([h] : List Str).getLast? = some h := rfl
            rw [hh] at hlast
            injection hlast
          have hlastk : k = last := hkh.trans hlasth
          have hvleaf : isLeafB val = true := by
            rw [hlastk] at hpred
            simpa using hpred
          rw [propValue_end _ _ _ _ _ _ ⟨hkh, rfl⟩]
          refine ⟨by simp [isLeafB], fun g _ => kl_leaf last g v, ?_, ?_, ?_⟩
          · intro pos
            cases val with
            | leaf w0 =>
              cases pos with
              | nil => rfl
              | cons a b => rw [valueAt_leaf_cons, valueAt_leaf_cons]
            | node kvs0 => simp [isLeafB] at hvleaf
            | seq xs0 => simp [isLeafB] at hvleaf
          · intro pos hm hex
            cases pos with
            | nil => rfl
            | cons a b =>
              exfalso
              cases val with
              | leaf w0 => rw [valueAt_leaf_cons] at hex; simp at hex
              | node kvs0 => simp [isLeafB] at hvleaf
              | seq xs0 => simp [isLeafB] at hvleaf
          · intro pos w2 hval hnm
            cases pos with
            | nil =>
              exfalso
              apply hnm
              rw [hkh]
              exact .exact h
            | cons a b =>
              exfalso
              cases val with
              | leaf w0 => rw [valueAt_leaf_cons] at hval; cases hval
              | node kvs0 => simp [isLeafB] at hvleaf
              | seq xs0 => simp [isLeafB] at hvleaf
        · have hv1A : ∀ g, keyLeafOnlyB last g val = true →
              keyLeafOnlyB last g
                (if k = h then propagateCfg (fun k => k) f val t (.leaf v) else val) = true := by
            intro g hg
            by_cases hkh : k = h
            · rw [if_pos hkh]
              have htne : t ≠ [] := fun h0 => hcond ⟨hkh, h0⟩
              have hlastT : t.getLast? = some last := by
                rw [← getLast_cons_ne_nil h t htne]; exact hlast
              exact (ih t last htne hlastT val v hkf).1 g hg
            · rwa [if_neg hkh]
          have hv1C : ∀ pos,
              (valueAt (if k = h then propagateCfg (fun k => k) f val t (.leaf v) else val)
                pos).isSome = (valueAt val pos).isSome := by
            intro pos
            by_cases hkh : k = h
            · rw [if_pos hkh]
              have htne : t ≠ [] := fun h0 => hcond ⟨hkh, h0⟩
              have hlastT : t.getLast? = some last := by
                rw [← getLast_cons_ne_nil h t htne]; exact hlast
              exact (ih t last htne hlastT val v hkf).2.1 pos
            · rw [if_neg hkh]
          have hv1B : ∀ pos, k = h → GMatch t pos → (valueAt val pos).isSome = true →
              valueAt (if k = h then propagateCfg (fun k => k) f val t (.leaf v) else val)
                pos = some (.leaf v) := by
            intro pos hkh hmt hex
            rw [if_pos hkh]
            have htne : t ≠ [] := gmatch_path_ne_nil hmt
            have hlastT : t.getLast? = some last := by
              rw [← getLast_cons_ne_nil h t htne]; exact hlast
            exact (ih t last htne hlastT val v hkf).2.2.1 pos hmt hex
          have hv1D : ∀ pos w2, valueAt val pos = some (.leaf w2) →
              ¬ GMatch (h :: t) (k :: pos) →
              valueAt (if k = h then propagateCfg (fun k => k) f val t (.leaf v) else val)
                pos = some (.leaf w2) := by
            intro pos w2 hval hnm
            by_cases hkh : k = h
            · rw [if_pos hkh]
              have hnmt : ¬ GMatch t pos := fun hmt => hnm (by
                rw [hkh]; exact .consume h hmt)
              have htne : t ≠ [] := fun h0 => hcond ⟨hkh, h0⟩
              have hlastT : t.getLast? = some last := by
                rw [← getLast_cons_ne_nil h t htne]; exact hlast
              exact (ih t last htne hlastT val v hkf).2.2.2 pos w2 hval hnmt
            · rwa [if_neg hkh]
          have hv1pred : (!(decide (k = last)) ||
              isLeafB (if k = h then propagateCfg (fun k => k) f val t (.leaf v) else val)) =
              true := by
            by_cases hkl : k = last
            · have hvleaf : isLeafB val = true := by
                rw [hkl] at hpred
                simpa using hpred
              cases val with
              | leaf w0 =>
                have heq : (if k = h then
                    propagateCfg (fun k => k) f (.leaf w0) t (.leaf v) else
                    Cfg.leaf w0) = .leaf w0 := by
                  by_cases hkh : k = h
                  · rw [if_pos hkh, propagateCfg_leaf]
                  · rw [if_neg hkh]
                rw [heq]
                simp [isLeafB]
              | node kvs0 => simp [isLeafB] at hvleaf
              | seq xs0 => simp [isLeafB] at hvleaf
            · simp [hkl]
          have hv1kf : keyLeafOnlyB last f
              (if k = h then propagateCfg (fun k => k) f val t (.leaf v) else val) =
              true := hv1A f hkf
          cases hval1 : (if k = h then propagateCfg (fun k => k) f val t (.leaf v) else val) with
          | leaf w1 =>
            rw [propValue_mid_leaf _ _ _ _ _ _ _ hcond hval1]
            rw [hval1] at hv1C hv1B hv1D hv1pred
            refine ⟨hv1pred, fun g _ => kl_leaf last g w1, hv1C, ?_, ?_⟩
            · intro pos hm hex
              cases pos with
              | nil =>
                exfalso
                cases hm with
                | exact => exact hcond ⟨rfl, rfl⟩
                | consume h2 hmt => exact absurd rfl (gmatch_pos_ne_nil hmt)
                | gap k2 hmp => exact absurd rfl (gmatch_pos_ne_nil hmp)
              | cons a b =>
                exfalso
                have hc2 := hv1C (a :: b)
                rw [valueAt_leaf_cons] at hc2
                rw [← hc2] at hex
                simp at hex
            · intro pos w2 hval hnm
              exact hv1D pos w2 hval hnm
          | node kvs1 =>
            rw [propValue_mid_node _ _ _ _ _ _ _ hcond hval1]
            rw [hval1] at hv1A hv1C hv1B hv1D hv1pred hv1kf
            have ihF := ih (h :: t) last (List.cons_ne_nil _ _) hlast (.node kvs1) v hv1kf
            have hkl : ¬ k = last := by
              intro hkl
              rw [hkl] at hv1pred
              simp [isLeafB] at hv1pred
            refine ⟨by simp [hkl], ?_, ?_, ?_, ?_⟩
            · intro g hg
              exact ihF.1 g (hv1A g hg)
            · intro pos
              rw [ihF.2.1 pos, hv1C pos]
            · intro pos hm hex
              cases hm with
              | exact => exact absurd ⟨rfl, rfl⟩ hcond
              | consume h2 hmt =>
                have hb := hv1B pos rfl hmt hex
                by_cases hm2 : GMatch (h :: t) pos
                · exact ihF.2.2.1 pos hm2 (by rw [hb]; rfl)
                · exact ihF.2.2.2 pos v hb hm2
              | gap k2 hmp =>
                refine ihF.2.2.1 pos hmp ?_
                rw [hv1C pos]
                exact hex
            · intro pos w2 hval hnm
              have hd := hv1D pos w2 hval hnm
              have hnm2 : ¬ GMatch (h :: t) pos := fun hmp => hnm (.gap k hmp)
              exact ihF.2.2.2 pos w2 hd hnm2
          | seq xs1 =>
            rw [propValue_mid_seq _ _ _ _ _ _ _ hcond hval1]
            rw [hval1] at hv1A hv1C hv1B hv1D hv1pred hv1kf
            have hkl : ¬ k = last := by
              intro hkl
              rw [hkl] at hv1pred
              simp [isLeafB] at hv1pred
            refine ⟨by simp [hkl], ?_, ?_, ?_, ?_⟩
            · intro g hg
              have hg1 := hv1A g hg
              cases g with
              | zero => rw [kl_zero_seq] at hg1; cases hg1
              | succ g2 =>
                rw [kl_succ_seq] at hg1 ⊢
                cases f with
                | zero => rw [kl_zero_seq] at hv1kf; cases hv1kf
                | succ f2 =>
                  rw [kl_succ_seq] at hv1kf
                  refine allElems_prop2 (keyLeafOnlyB last f2) (keyLeafOnlyB last g2)
                    _ (h :: t) (.leaf v) ?_ xs1 hv1kf hg1
                  intro e heM heg
                  exact (ih (h :: t) last (List.cons_ne_nil _ _) hlast e v
                    (kl_mono last f2 (f2 + 1) e (Nat.le_succ f2) heM)).1 g2 heg
            · intro pos
              cases pos with
              | nil => rfl
              | cons a b =>
                rw [valueAt_seq_cons]
                have hc2 := hv1C (a :: b)
                rw [valueAt_seq_cons] at hc2
                exact hc2
            · intro pos hm hex
              cases pos with
              | nil =>
                exfalso
                cases hm with
                | exact => exact hcond ⟨rfl, rfl⟩
                | consume h2 hmt => exact absurd rfl (gmatch_pos_ne_nil hmt)
                | gap k2 hmp => exact absurd rfl (gmatch_pos_ne_nil hmp)
              | cons a b =>
                exfalso
                have hc2 := hv1C (a :: b)
                rw [valueAt_seq_cons] at hc2
                rw [← hc2] at hex
                simp at hex
            · intro pos w2 hval hnm
              have hd := hv1D pos w2 hval hnm
              cases pos with
              | nil =>
                rw [valueAt_nil] at hd
                injection hd with hd2
                cases hd2
              | cons a b =>
                rw [valueAt_seq_cons] at hd
                cases hd
      rw [kl_succ_node] at hinv
      refine ⟨?_, ?_, ?_, ?_⟩
      · intro g hg
        cases g with
        | zero => rw [kl_zero_node] at hg; cases hg
        | succ g2 =>
          rw [kl_succ_node] at hg ⊢
          exact allFieldsPred_map2 (keyLeafOnlyB last f) (keyLeafOnlyB last g2) _ _
            (fun k val hp hM hc => ⟨(hKF k val hp hM).1, (hKF k val hp hM).2.1 g2 hc⟩)
            kvs hinv hg
      · intro pos
        cases pos with
        | nil => rfl
        | cons k0 rest =>
          rw [valueAt_node, valueAt_node, fget_fmap]
          cases hfg : fget kvs k0 with
          | none => rfl
          | some val =>
            obtain ⟨hp, hM⟩ := fields_get_pred _ _ kvs k0 val hinv hfg
            exact (hKF k0 val hp hM).2.2.1 rest
      · intro pos hm hex
        cases pos with
        | nil => exact absurd rfl (gmatch_pos_ne_nil hm)
        | cons k0 rest =>
          rw [valueAt_node, fget_fmap]
          rw [valueAt_node] at hex
          cases hfg : fget kvs k0 with
          | none => rw [hfg] at hex; simp at hex
          | some val =>
            rw [hfg] at hex
            obtain ⟨hp, hM⟩ := fields_get_pred _ _ kvs k0 val hinv hfg
            exact (hKF k0 val hp hM).2.2.2.1 rest hm hex
      · intro pos w2 hval hnm
        cases pos with
        | nil =>
          rw [valueAt_nil] at hval
          injection hval with hv2
          cases hv2
        | cons k0 rest =>
          rw [valueAt_node, fget_fmap]
          rw [valueAt_node] at hval
          cases hfg : fget kvs k0 with
          | none => rw [hfg] at hval; cases hval
          | some val =>
            rw [hfg] at hval
            obtain ⟨hp, hM⟩ := fields_get_pred _ _ kvs k0 val hinv hfg
            exact (hKF k0 val hp hM).2.2.2.2 rest w2 hval hnm

theorem fields_pred_fset (chk : Cfg → Bool) (pred : Str → Cfg → Bool)
    (k : Str) (w : Cfg) (hp : pred k w = true) (hc : chk w = true) :
    ∀ (kvs : Fields), allFieldsPredWith chk pred kvs = true →
    allFieldsPredWith chk pred (fset kvs k w) = true
  | .nil, _ => by
    show (pred k w && chk w && true) = true
    rw [hp, hc]
    rfl
  | .cons k2 v rest, hall => by
    simp only [allFieldsPredWith, Bool.and_eq_true] at hall
    show allFieldsPredWith chk pred
      (if k2 = k then .cons k2 w rest else .cons k2 v (fset rest k w)) = true
    by_cases h2 : k2 = k
    · rw [if_pos h2]
      simp only [allFieldsPredWith, Bool.and_eq_true]
      exact ⟨⟨h2 ▸ hp, hc⟩, hall.2⟩
    · rw [if_neg h2]
      simp only [allFieldsPredWith, Bool.and_eq_true]
      exact ⟨hall.1, fields_pred_fset chk pred k w hp hc rest hall.2⟩

theorem chainCfg_nil (c : Cfg) : chainCfg [] c = c := rfl

theorem mergeFields_chain_leaf (dst : Fields) (k : Str) (w : CLeaf)
    (cur : List Str) :
    mergeFields (fun k => k) dst (.cons k (.leaf w) .nil) cur =
      (fset dst k (.leaf w), []) := by
  rw [mergeFields.eq_3 _ _ _ _ _ _ (fun vf df hcon _ => Cfg.noConfusion hcon)]
  simp only [mergeFields.eq_1, ffindKey_id_getD]

theorem mergeFields_chain_nodeelse (dst : Fields) (k : Str) (vf : Fields)
    (cur : List Str) (hno : ∀ df, fget dst k ≠ some (.node df)) :
    mergeFields (fun k => k) dst (.cons k (.node vf) .nil) cur =
      (fset dst k (.node vf), []) := by
  rw [mergeFields.eq_3 _ _ _ _ _ _ (fun vf2 df _ hff =>
    hno df (by simpa only [ffindKey_id_getD] using hff))]
  simp only [mergeFields.eq_1, ffindKey_id_getD]

theorem mergeFields_chain_nodenode (dst : Fields) (k : Str) (vf df : Fields)
    (cur : List Str) (hfg : fget dst k = some (.node df)) :
    mergeFields (fun k => k) dst (.cons k (.node vf) .nil) cur =
      (fset dst k (.node (mergeFields (fun k => k) df vf (cur ++ [k])).1),
        ((mergeFields (fun k => k) df vf (cur ++ [k])).2 ++
          fieldsLeaves (fun k => k) (cur ++ [k]) vf) ++ []) := by
  have hfg2 : fget dst ((ffindKey (fun k => k) dst ((fun k => k) k)).getD k) =
      some (.node df) := by
    simp only [ffindKey_id_getD]
    exact hfg
  rw [mergeFields.eq_2 _ _ _ _ _ _ _ hfg2]
  simp only [mergeFields.eq_1, ffindKey_id_getD]

/-- The pending updates produced by merging a single-chain incoming tree are
all the full chain path with the chain's leaf value. -/
theorem merge_chain_pending (v : CLeaf) : ∀ (p : List Str) (bf : Fields)
    (cur : List Str), p ≠ [] →
    ∀ pr ∈ (mergeFields (fun k => k) bf (chainFieldsOf p v) cur).2,
      pr = (cur ++ p, Cfg.leaf v) := by
  intro p
  induction p with
  | nil => intro bf cur hne; exact absurd rfl hne
  | cons k rest ih =>
    intro bf cur _
    show ∀ pr ∈ (mergeFields (fun k => k) bf
      (.cons k (chainCfg rest (.leaf v)) .nil) cur).2, _
    cases rest with
    | nil =>
      rw [chainCfg_nil, mergeFields_chain_leaf]
      intro pr hpr
      cases hpr
    | cons r rs =>
      rw [chainCfg_cons]
      cases hfg : fget bf k with
      | none =>
        rw [mergeFields_chain_nodeelse bf k _ cur
          (fun df h2 => by rw [hfg] at h2; cases h2)]
        intro pr hpr
        cases hpr
      | some w =>
        cases w with
        | leaf w0 =>
          rw [mergeFields_chain_nodeelse bf k _ cur
            (fun df h2 => by rw [hfg] at h2; cases h2)]
          intro pr hpr
          cases hpr
        | seq xs0 =>
          rw [mergeFields_chain_nodeelse bf k _ cur
            (fun df h2 => by rw [hfg] at h2; cases h2)]
          intro pr hpr
          cases hpr
        | node df =>
          rw [mergeFields_chain_nodenode bf k _ df cur hfg]
          intro pr hpr
          rcases List.mem_append.mp hpr with hab | hnil
          · rcases List.mem_append.mp hab with hin | hsl
            · have := ih df (cur ++ [k]) (List.cons_ne_nil _ _) pr hin
              rw [this]
              simp [List.append_assoc]
            · rw [chain_leaves v (r :: rs) (cur ++ [k])
                (List.cons_ne_nil _ _)] at hsl
              rcases List.mem_singleton.mp hsl with rfl
              simp [List.append_assoc]
          · cases hnil

/-- Merging a single-chain incoming tree preserves the every-`last`-field-is-
a-leaf invariant, with the chain depth added to the check fuel. -/
theorem merge_chain_invariant (v : CLeaf) (last : Str) : ∀ (p : List Str)
    (bf : Fields) (cur : List Str) (g : Nat), p ≠ [] →
    p.getLast? = some last → last ∉ p.dropLast →
    keyLeafOnlyB last g (.node bf) = true →
    keyLeafOnlyB last (g + p.length)
      (.node (mergeFields (fun k => k) bf (chainFieldsOf p v) cur).1) = true := by
  intro p
  induction p with
  | nil => intro bf cur g hne; exact absurd rfl hne
  | cons k rest ih =>
    intro bf cur g _ hlast hnotin hg
    cases g with
    | zero => rw [kl_zero_node] at hg; cases hg
    | succ g2 =>
    rw [kl_succ_node] at hg
    show keyLeafOnlyB last (g2 + 1 + rest.length + 1)
      (.node (mergeFields (fun k => k) bf
        (.cons k (chainCfg rest (.leaf v)) .nil) cur).1) = true
    cases rest with
    | nil =>
      have hlastk : k = last := by
        have hh : ([k] : List Str).getLast? = some k := rfl
        rw [hh] at hlast
        injection hlast
      rw [chainCfg_nil, mergeFields_chain_leaf, kl_succ_node]
      refine fields_pred_fset _ _ k (.leaf v) ?_ (kl_leaf last _ v) bf ?_
      · simp [isLeafB]
      · exact allFieldsPred_imp _ _ _
          (fun w2 => kl_mono last g2 (g2 + 1 + 0) w2 (by omega)) bf hg
    | cons r rs =>
      have hkl : k ≠ last := by
        intro he
        refine hnotin ?_
        rw [he]
        show last ∈ (last :: (r :: rs)).dropLast
        rw [List.dropLast_cons_of_ne_nil (List.cons_ne_nil r rs)]
        exact List.mem_cons_self _ _
      have hlastT : (r :: rs).getLast? = some last := by
        rw [← getLast_cons_ne_nil k (r :: rs) (List.cons_ne_nil r rs)]
        exact hlast
      have hnotinT : last ∉ (r :: rs).dropLast := by
        intro hmem
        refine hnotin ?_
        rw [List.dropLast_cons_of_ne_nil (List.cons_ne_nil r rs)]
        exact List.mem_cons_of_mem _ hmem
      have helse : allFieldsPredWith (keyLeafOnlyB last (g2 + 1 + (r :: rs).length))
          (fun k2 w => !(decide (k2 = last)) || isLeafB w)
          (fset bf k (chainCfg (r :: rs) (.leaf v))) = true := by
        refine fields_pred_fset _ _ k _ (by simp [hkl]) ?_ bf ?_
        · refine kl_mono last (r :: rs).length _ _ (by omega) ?_
          exact chain_keyLeaf last v (r :: rs) hnotinT (fun _ => hlastT)
        · exact allFieldsPred_imp _ _ _
            (fun w2 => kl_mono last g2 _ w2 (by omega)) bf hg
      rw [chainCfg_cons] at helse ⊢
      cases hfg : fget bf k with
      | none =>
        rw [mergeFields_chain_nodeelse bf k _ cur
          (fun df h2 => by rw [hfg] at h2; cases h2), kl_succ_node]
        exact helse
      | some w =>
        cases w with
        | leaf w0 =>
          rw [mergeFields_chain_nodeelse bf k _ cur
            (fun df h2 => by rw [hfg] at h2; cases h2), kl_succ_node]
          exact helse
        | seq xs0 =>
          rw [mergeFields_chain_nodeelse bf k _ cur
            (fun df h2 => by rw [hfg] at h2; cases h2), kl_succ_node]
          exact helse
        | node df =>
          obtain ⟨hpk, hckd⟩ := fields_get_pred _ _ bf k (.node df) hg hfg
          have hinner := ih df (cur ++ [k]) g2 (List.cons_ne_nil r rs)
            hlastT hnotinT hckd
          rw [mergeFields_chain_nodenode bf k _ df cur hfg, kl_succ_node]
          refine fields_pred_fset _ _ k _ (by simp [hkl]) ?_ bf ?_
          · exact kl_mono last (g2 + (r :: rs).length) _ _ (by omega) hinner
          · exact allFieldsPred_imp _ _ _
              (fun w2 => kl_mono last g2 _ w2 (by omega)) bf hg

/-- Merging a single-chain incoming tree never removes an existing dict-path
position (given the leaf invariant for the chain's final key). -/
theorem merge_chain_exists (v : CLeaf) (last : Str) : ∀ (p : List Str)
    (bf : Fields) (cur : List Str) (g : Nat), p ≠ [] →
    p.getLast? = some last → last ∉ p.dropLast →
    keyLeafOnlyB last g (.node bf) = true →
    ∀ pos, (valueAt (.node bf) pos).isSome = true →
    (valueAt (.node (mergeFields (fun k => k) bf (chainFieldsOf p v) cur).1)
      pos).isSome = true := by
  intro p
  induction p with
  | nil => intro bf cur g hne; exact absurd rfl hne
  | cons k rest ih =>
    intro bf cur g _ hlast hnotin hg pos hex
    cases g with
    | zero => rw [kl_zero_node] at hg; cases hg
    | succ g2 =>
    rw [kl_succ_node] at hg
    show (valueAt (.node (mergeFields (fun k => k) bf
      (.cons k (chainCfg rest (.leaf v)) .nil) cur).1) pos).isSome = true
    have hgen : ∀ (X : Cfg),
        (∀ rest2, pos = k :: rest2 → (valueAt (.node bf) (k :: rest2)).isSome = true →
          (valueAt X rest2).isSome = true) →
        (valueAt (.node (fset bf k X)) pos).isSome = true := by
      intro X hX
      cases pos with
      | nil => rfl
      | cons k0 rest2 =>
        rw [valueAt_node, fget_fset]
        by_cases hk0 : k0 = k
        · rw [if_pos hk0]
          subst hk0
          exact hX rest2 rfl hex
        · rw [if_neg hk0]
          rw [valueAt_node] at hex
          exact hex
    cases rest with
    | nil =>
      have hlastk : k = last := by
        have hh : ([k] : List Str).getLast? = some k := rfl
        rw [hh] at hlast
        injection hlast
      rw [chainCfg_nil, mergeFields_chain_leaf]
      refine hgen (.leaf v) ?_
      intro rest2 _ hex2
      rw [valueAt_node] at hex2
      cases hfg : fget bf k with
      | none => rw [hfg] at hex2; simp at hex2
      | some w =>
        rw [hfg] at hex2
        cases w with
        | leaf w0 =>
          cases rest2 with
          | nil => rfl
          | cons a b =>
            have hx : (valueAt (Cfg.leaf w0) (a :: b)).isSome = true := hex2
            rw [valueAt_leaf_cons] at hx
            simp at hx
        | node df =>
          exfalso
          have := (fields_get_pred _ _ bf k (.node df) hg hfg).1
          rw [hlastk] at this
          simp [isLeafB] at this
        | seq xs0 =>
          exfalso
          have := (fields_get_pred _ _ bf k (.seq xs0) hg hfg).1
          rw [hlastk] at this
          simp [isLeafB] at this
    | cons r rs =>
      have hlastT : (r :: rs).getLast? = some last := by
        rw [← getLast_cons_ne_nil k (r :: rs) (List.cons_ne_nil r rs)]
        exact hlast
      have hnotinT : last ∉ (r :: rs).dropLast := by
        intro hmem
        refine hnotin ?_
        rw [List.dropLast_cons_of_ne_nil (List.cons_ne_nil r rs)]
        exact List.mem_cons_of_mem _ hmem
      rw [chainCfg_cons]
      cases hfg : fget bf k with
      | none =>
        rw [mergeFields_chain_nodeelse bf k _ cur
          (fun df h2 => by rw [hfg] at h2; cases h2)]
        refine hgen _ ?_
        intro rest2 _ hex2
        rw [valueAt_node, hfg] at hex2
        simp at hex2
      | some w =>
        cases w with
        | leaf w0 =>
          rw [mergeFields_chain_nodeelse bf k _ cur
            (fun df h2 => by rw [hfg] at h2; cases h2)]
          refine hgen _ ?_
          intro rest2 _ hex2
          rw [valueAt_node, hfg] at hex2
          cases rest2 with
          | nil => rfl
          | cons a b =>
            have hx : (valueAt (Cfg.leaf w0) (a :: b)).isSome = true := hex2
            rw [valueAt_leaf_cons] at hx
            simp at hx
        | seq xs0 =>
          rw [mergeFields_chain_nodeelse bf k _ cur
            (fun df h2 => by rw [hfg] at h2; cases h2)]
          refine hgen _ ?_
          intro rest2 _ hex2
          rw [valueAt_node, hfg] at hex2
          cases rest2 with
          | nil => rfl
          | cons a b =>
            have hx : (valueAt (Cfg.seq xs0) (a :: b)).isSome = true := hex2
            rw [valueAt_seq_cons] at hx
            simp at hx
        | node df =>
          obtain ⟨hpk, hckd⟩ := fields_get_pred _ _ bf k (.node df) hg hfg
          rw [mergeFields_chain_nodenode bf k _ df cur hfg]
          refine hgen _ ?_
          intro rest2 _ hex2
          rw [valueAt_node, hfg] at hex2
          exact ih df (cur ++ [k]) g2 (List.cons_ne_nil r rs) hlastT hnotinT
            hckd rest2 hex2

theorem applyPending_nil (norm : Str → Str) (fuel : Nat) (c : Cfg) :
    applyPending norm fuel c [] = c := rfl

theorem applyPending_cons (norm : Str → Str) (fuel : Nat) (c : Cfg)
    (pr : List Str × Cfg) (rest : List (List Str × Cfg)) :
    applyPending norm fuel c (pr :: rest) =
      applyPending norm fuel (propagateCfg norm fuel c pr.1 pr.2) rest := rfl

/-- Folding a pending list all of whose entries are the same `(path, leaf)`
update: the invariant and position existence are preserved, and once at least
one update runs, every gap-matched existing position holds the leaf. -/
theorem applyPending_chain (p : List Str) (last : Str) (v : CLeaf) (fuel : Nat)
    (hp : p ≠ []) (hlast : p.getLast? = some last) :
    ∀ (pend : List (List Str × Cfg)), (∀ pr ∈ pend, pr = (p, Cfg.leaf v)) →
    ∀ c, keyLeafOnlyB last fuel c = true →
    keyLeafOnlyB last fuel (applyPending (fun k => k) fuel c pend) = true ∧
    (∀ pos, (valueAt (applyPending (fun k => k) fuel c pend) pos).isSome =
      (valueAt c pos).isSome) ∧
    (pend ≠ [] → ∀ pos, GMatch p pos → (valueAt c pos).isSome = true →
      valueAt (applyPending (fun k => k) fuel c pend) pos = some (.leaf v)) := by
  intro pend
  induction pend with
  | nil =>
    intro _ c hinv
    exact ⟨hinv, fun pos => rfl, fun hne => absurd rfl hne⟩
  | cons pr rest ih =>
    intro hall c hinv
    have hpr : pr = (p, Cfg.leaf v) := hall pr (List.mem_cons_self _ _)
    subst hpr
    rw [applyPending_cons]
    have hP := prop_main fuel p last hp hlast c v hinv
    have hinv1 := hP.1 fuel hinv
    have hIH := ih (fun pr2 h2 => hall pr2 (List.mem_cons_of_mem _ h2)) _ hinv1
    refine ⟨hIH.1, fun pos => (hIH.2.1 pos).trans (hP.2.1 pos), ?_⟩
    intro _ pos hm hex
    cases rest with
    | nil =>
      rw [applyPending_nil]
      exact hP.2.2.1 pos hm hex
    | cons pr2 rest2 =>
      refine hIH.2.2 (List.cons_ne_nil _ _) pos hm ?_
      rw [hP.2.1 pos]
      exact hex

theorem deepMergeConfigs_node_spec (fuel : Nat) (bf inf : Fields) :
    deepMergeConfigs fuel [] (.node bf) (.node inf) false =
      .ok (applyPending (fun k => k) fuel
        (.node (mergeFields (fun k => k) bf inf []).1)
        ((mergeFields (fun k => k) bf inf []).2 ++
          fieldsLeaves (fun k => k) [] inf)) := rfl

/-- CLAIM C5 counterexample.  Base `{a: {b: 0}, c: {a: {b: 0}}}` holds the
path `a.b` at two locations with equal leaf values; the incoming tree
`{a: {b: 1}, b: 2}` updates `a.b` at one location only — yet the merged
result holds `2` (the gap-propagated value of the unrelated sibling update
`b: 2`) at both locations instead of the updated `1`: the per-leaf
propagation passes interfere, so the claimed property fails. -/
theorem propagation_interference_counterexample :
    deepMergeConfigs 30 []
        (.node (.cons (lit "a") (.node (.cons (lit "b") (.leaf (.int 0)) .nil))
          (.cons (lit "c") (.node (.cons (lit "a")
            (.node (.cons (lit "b") (.leaf (.int 0)) .nil)) .nil)) .nil)))
        (.node (.cons (lit "a") (.node (.cons (lit "b") (.leaf (.int 1)) .nil))
          (.cons (lit "b") (.leaf (.int 2)) .nil))) false =
      .ok (.node (.cons (lit "a") (.node (.cons (lit "b") (.leaf (.int 2)) .nil))
        (.cons (lit "c") (.node (.cons (lit "a")
          (.node (.cons (lit "b") (.leaf (.int 2)) .nil)) .nil))
        (.cons (lit "b") (.leaf (.int 2)) .nil)))) ∧
    valueAt (.node (.cons (lit "a") (.node (.cons (lit "b") (.leaf (.int 0)) .nil))
        (.cons (lit "c") (.node (.cons (lit "a")
          (.node (.cons (lit "b") (.leaf (.int 0)) .nil)) .nil)) .nil)))
      [lit "a", lit "b"] = some (.leaf (.int 0)) ∧
    valueAt (.node (.cons (lit "a") (.node (.cons (lit "b") (.leaf (.int 0)) .nil))
        (.cons (lit "c") (.node (.cons (lit "a")
          (.node (.cons (lit "b") (.leaf (.int 0)) .nil)) .nil)) .nil)))
      [lit "c", lit "a", lit "b"] = some (.leaf (.int 0)) ∧
    valueAt (.node (.cons (lit "a") (.node (.cons (lit "b") (.leaf (.int 1)) .nil))
        (.cons (lit "b") (.leaf (.int 2)) .nil)))
      [lit "a", lit "b"] = some (.leaf (.int 1)) ∧
    valueAt (.node (.cons (lit "a") (.node (.cons (lit "b") (.leaf (.int 2)) .nil))
        (.cons (lit "c") (.node (.cons (lit "a")
          (.node (.cons (lit "b") (.leaf (.int 2)) .nil)) .nil))
        (.cons (lit "b") (.leaf (.int 2)) .nil))))
      [lit "a", lit "b"] = some (.leaf (.int 2)) ∧
    valueAt (.node (.cons (lit "a") (.node (.cons (lit "b") (.leaf (.int 2)) .nil))
        (.cons (lit "c") (.node (.cons (lit "a")
          (.node (.cons (lit "b") (.leaf (.int 2)) .nil)) .nil))
        (.cons (lit "b") (.leaf (.int 2)) .nil))))
      [lit "c", lit "a", lit "b"] = some (.leaf (.int 2)) ∧
    (Cfg.leaf (.int 2) : Cfg) ≠ .leaf (.int 1) :=
  ⟨by decide, by decide, by decide, by decide, by decide, by decide, by decide⟩

/-- CLAIM C5 (amended).  When the incoming tree updates exactly one path `p`
with a scalar (a single dict chain), every field named after `p`'s final key
in the base holds a scalar leaf, and that final key does not recur earlier in
`p`, `deep_merge_configs` (case-sensitive, empty remap table) replicates the
update to every location of the base carrying the path: for every prefix `q`,
if `q ++ p` existed in the base it holds the updated leaf in the result.
The original claim is false in general because the pending propagation passes
of distinct incoming leaves interfere (see the counterexample). -/
theorem deep_merge_propagation_replicates (bf : Fields) (p : List Str)
    (v : CLeaf) (last : Str) (fuel : Nat) (hp : p ≠ [])
    (hlast : p.getLast? = some last) (hnotin : last ∉ p.dropLast)
    (hleaf : keyLeafOnlyB last fuel (.node bf) = true) :
    ∃ res, deepMergeConfigs (fuel + p.length) [] (.node bf)
        (chainCfg p (.leaf v)) false = .ok res ∧
      ∀ q w, valueAt (.node bf) (q ++ p) = some w →
        valueAt res (q ++ p) = some (.leaf v) := by
  cases p with
  | nil => exact absurd rfl hp
  | cons k rest =>
  rw [chainCfg_cons, deepMergeConfigs_node_spec]
  have hpend : ∀ pr ∈ (mergeFields (fun k => k) bf (chainFieldsOf (k :: rest) v) []).2 ++
      fieldsLeaves (fun k => k) [] (chainFieldsOf (k :: rest) v),
      pr = (k :: rest, Cfg.leaf v) := by
    intro pr hpr
    rcases List.mem_append.mp hpr with hin | hsl
    · have := merge_chain_pending v (k :: rest) bf [] hp pr hin
      rwa [List.nil_append] at this
    · rw [chain_leaves v (k :: rest) [] (List.cons_ne_nil _ _)] at hsl
      rcases List.mem_singleton.mp hsl with rfl
      rw [List.nil_append]
  have hMinv := merge_chain_invariant v last (k :: rest) bf [] fuel hp hlast
    hnotin hleaf
  have hFold := applyPending_chain (k :: rest) last v (fuel + (k :: rest).length)
    hp hlast _ hpend _ (kl_mono last _ _ _ (le_refl _) hMinv)
  refine ⟨_, rfl, ?_⟩
  intro q w hqw
  have hex : (valueAt (.node bf) (q ++ (k :: rest))).isSome = true := by
    rw [hqw]; rfl
  have hexM := merge_chain_exists v last (k :: rest) bf [] fuel hp hlast hnotin
    hleaf (q ++ (k :: rest)) hex
  have hGM : GMatch (k :: rest) (q ++ (k :: rest)) :=
    gmatch_prepend q (gmatch_self (k :: rest) hp)
  refine hFold.2.2 ?_ (q ++ (k :: rest)) hGM hexM
  intro hcontra
  have := List.append_eq_nil.mp hcontra
  rw [chain_leaves v (k :: rest) [] (List.cons_ne_nil _ _)] at this
  cases this.2

/-- Witness for `deep_merge_propagation_replicates` at the base
`{a: {b: 0}, c: {a: {b: 0}}}` and the single-path incoming `{a: {b: 1}}`. -/
theorem deep_merge_propagation_replicates_witness :
    (([lit "a", lit "b"] : List Str) ≠ [] ∧
     ([lit "a", lit "b"] : List Str).getLast? = some (lit "b") ∧
     lit "b" ∉ ([lit "a", lit "b"] : List Str).dropLast ∧
     keyLeafOnlyB (lit "b") 5
       (.node (.cons (lit "a") (.node (.cons (lit "b") (.leaf (.int 0)) .nil))
         (.cons (lit "c") (.node (.cons (lit "a")
           (.node (.cons (lit "b") (.leaf (.int 0)) .nil)) .nil)) .nil))) = true) ∧
    (∃ res, deepMergeConfigs (5 + ([lit "a", lit "b"] : List Str).length) []
        (.node (.cons (lit "a") (.node (.cons (lit "b") (.leaf (.int 0)) .nil))
          (.cons (lit "c") (.node (.cons (lit "a")
            (.node (.cons (lit "b") (.leaf (.int 0)) .nil)) .nil)) .nil)))
        (chainCfg [lit "a", lit "b"] (.leaf (.int 1))) false = .ok res ∧
      ∀ q w, valueAt (.node (.cons (lit "a")
          (.node (.cons (lit "b") (.leaf (.int 0)) .nil))
          (.cons (lit "c") (.node (.cons (lit "a")
            (.node (.cons (lit "b") (.leaf (.int 0)) .nil)) .nil)) .nil)))
          (q ++ [lit "a", lit "b"]) = some w →
        valueAt res (q ++ [lit "a", lit "b"]) = some (.leaf (.int 1))) :=
  ⟨⟨by decide, by decide, by decide, by decide⟩,
    deep_merge_propagation_replicates _ [lit "a", lit "b"] (.int 1) (lit "b") 5
      (by decide) (by decide) (by decide) (by decide)⟩
